import Mathlib

/-!
Verification of the disk-usage tree engine of `dropbox_du.py`.

The program builds a directory tree from a flat `(size, path)` index,
computes memoized aggregate sizes, resolves paths and reports per-child
disk usage.  This file gives a shallow embedding of those functions and
proves (or refutes) the specified properties.

Modelling conventions:
* Python strings are modelled as `List Char` (`Seg` for one path segment);
  `str.lower` is `List.map Char.toLower`.
* Python `dict` is an association list with unique keys; updating an
  existing key keeps its position, a fresh key is appended at the end,
  matching insertion-ordered Python dictionaries.
* Sizes are `Option Nat` (`none` models both a missing size and NaN,
  which `make_tree` converts to `None`).
* A Python function that can raise is modelled with `Option`/`Except`;
  `none` / `.error` is an uncaught exception.
* `pd.DataFrame.sort(col)` is modelled on the named column only: an
  ascending sort as a stable insertion sort, and `ascending=False` as the
  reverse of the stable ascending sort — pandas `nargsort` computes the
  stable ascending indexer and reverses it (`indexer[::-1]`), so a
  descending sort leaves ties in reversed insertion order.
  Rendering-only DataFrame operations (`set_index`, `astype`, printing)
  are outside the model, as the spec places table rendering outside the
  core.
-/

/-- One path segment (a Python string). -/
abbrev Seg := List Char

/-- One step of splitting on `'/'`: a slash opens a new group, any other
character is prepended to the current (first) group. -/
def splitStep (c : Char) (acc : List (List Char)) : List (List Char) :=
  if c = '/' then [] :: acc else (c :: acc.headD []) :: acc.tail

/-- Python `path.split('/')`: groups of characters between `'/'`s,
`[[]]` for the empty string, kept verbatim including empty groups. -/
def splitAll : List Char → List (List Char) :=
  List.foldr splitStep [[]]

/-- `split_path` from the source: split on `'/'` and drop empty segments. -/
def split_path (s : List Char) : List Seg :=
  (splitAll s).filter (fun p => decide (0 < p.length))

/-- Python `<=` on strings: lexicographic comparison by character code. -/
def lexLe : List Char → List Char → Bool
  | [], _ => true
  | _ :: _, [] => false
  | a :: as, b :: bs => if a = b then lexLe as bs else decide (a < b)

/-- Insert into a sorted list, keeping earlier elements first on ties. -/
def insSorted (le : α → α → Bool) (x : α) : List α → List α
  | [] => [x]
  | y :: ys => if le x y then x :: y :: ys else y :: insSorted le x ys

/-- Stable insertion sort (model of a single-key DataFrame sort). -/
def insSort (le : α → α → Bool) : List α → List α
  | [] => []
  | x :: xs => insSorted le x (insSort le xs)

/-- The `Node` class: `name`, `is_dir`, optional `size`, and the children
dictionary.  Files carry `children = []` (Python files simply lack the
attribute; every code path that would touch it on a file raises, which the
embedding models explicitly). -/
inductive Node where
  | mk (name : Seg) (is_dir : Bool) (size : Option Nat) (children : List (Seg × Node))

instance : Inhabited Node := ⟨.mk [] true none []⟩

/-- Field accessor for `name`. -/
def Node.name : Node → Seg
  | .mk nm _ _ _ => nm

/-- Field accessor for `is_dir`. -/
def Node.is_dir : Node → Bool
  | .mk _ d _ _ => d

/-- Field accessor for `size`. -/
def Node.size : Node → Option Nat
  | .mk _ _ sz _ => sz

/-- Field accessor for `children`. -/
def Node.children : Node → List (Seg × Node)
  | .mk _ _ _ cs => cs

mutual

/-- Boolean structural equality of nodes. -/
def nbeq : Node → Node → Bool
  | .mk nm1 d1 sz1 cs1, .mk nm2 d2 sz2 cs2 =>
    nm1 = nm2 && d1 = d2 && sz1 = sz2 && nbeqL cs1 cs2

/-- Boolean structural equality of children lists. -/
def nbeqL : List (Seg × Node) → List (Seg × Node) → Bool
  | [], [] => true
  | (k1, c1) :: r1, (k2, c2) :: r2 => k1 = k2 && nbeq c1 c2 && nbeqL r1 r2
  | _, _ => false

end

mutual

theorem nbeq_iff : ∀ a b : Node, nbeq a b = true ↔ a = b
  | .mk nm1 d1 sz1 cs1, .mk nm2 d2 sz2 cs2 => by
    have h1 := nbeqL_iff cs1 cs2
    simp only [nbeq, Bool.and_eq_true, decide_eq_true_eq, Node.mk.injEq, h1]
    tauto

theorem nbeqL_iff : ∀ a b : List (Seg × Node), nbeqL a b = true ↔ a = b
  | [], [] => by simp [nbeqL]
  | (k1, c1) :: r1, (k2, c2) :: r2 => by
    have h1 := nbeq_iff c1 c2
    have h2 := nbeqL_iff r1 r2
    simp only [nbeqL, Bool.and_eq_true, decide_eq_true_eq, List.cons.injEq, Prod.mk.injEq,
      h1, h2]
  | [], (_, _) :: _ => by simp [nbeqL]
  | (_, _) :: _, [] => by simp [nbeqL]

end

instance : DecidableEq Node := fun a b => decidable_of_iff _ (nbeq_iff a b)

mutual

theorem nodeInd {P : Node → Prop}
    (h : ∀ nm d sz cs, (∀ kc, kc ∈ cs → P kc.2) → P (Node.mk nm d sz cs)) :
    ∀ n, P n
  | .mk nm d sz cs => h nm d sz cs (nodeIndL h cs)

theorem nodeIndL {P : Node → Prop}
    (h : ∀ nm d sz cs, (∀ kc, kc ∈ cs → P kc.2) → P (Node.mk nm d sz cs)) :
    ∀ (cs : List (Seg × Node)) (kc : Seg × Node), kc ∈ cs → P kc.2
  | kc0 :: rest, kc, hx => by
    rcases List.mem_cons.mp hx with h1 | h2
    · exact h1 ▸ nodeInd h kc0.2
    · exact nodeIndL h rest kc h2

end

/-- Dictionary lookup `self.children[key]` (first matching key). -/
def lookupChild : List (Seg × Node) → Seg → Option Node
  | [], _ => none
  | (k, c) :: rest, seg => if k = seg then some c else lookupChild rest seg

/-- Dictionary store `self.children[key] = node`: replace in place if the
key is present, else append at the end (Python dict insertion order). -/
def setChild : List (Seg × Node) → Seg → Node → List (Seg × Node)
  | [], seg, x => [(seg, x)]
  | (k, c) :: rest, seg, x =>
    if k = seg then (seg, x) :: rest else (k, c) :: setChild rest seg x

/-- The existing child for `seg`, or the implicitly created intermediate
directory `Node(child, True, parent=self)`. -/
def childOr (cs : List (Seg × Node)) (seg : Seg) : Node :=
  match lookupChild cs seg with
  | some c => c
  | none => .mk seg true none []

/-- `Node.add_path`.  `none` models an uncaught exception: `IndexError`
on an empty path, or `AttributeError` when descending into a file
(a node without a `children` attribute).  The final segment always gets a
freshly constructed node (last-write-wins). -/
def addPath : Node → List Seg → Bool → Option Nat → Option Node
  | _, [], _, _ => none
  | .mk nm dcur sz cs, seg :: rest, d, s =>
    if dcur = true then
      if rest = [] then
        some (.mk nm dcur sz (setChild cs seg (.mk seg d s [])))
      else
        match addPath (childOr cs seg) rest d s with
        | some cur2 => some (.mk nm dcur sz (setChild cs seg cur2))
        | none => none
    else none

/-- Errors raised by `Node.find`: `KeyError` (reported as `PathNotFound`)
when a segment is absent, `AttributeError` (reported as `NotADirectory`)
when descending into a file. -/
inductive FindErr where
  | pathNotFound (seg : Seg)
  | notADirectory (seg : Seg)
deriving DecidableEq

/-- `Node.find`, after the query has been split into segments. -/
def find : Node → List Seg → Except FindErr Node
  | n, [] => .ok n
  | n, seg :: rest =>
    if n.is_dir = true then
      match lookupChild n.children seg with
      | some c => find c rest
      | none => .error (.pathNotFound seg)
    else .error (.notADirectory seg)

/-- `Node.find` on a raw path string. -/
def findPath (n : Node) (p : List Char) : Except FindErr Node := find n (split_path p)

instance : DecidableEq (Except FindErr Node)
  | .ok a, .ok b => decidable_of_iff (a = b) (by simp)
  | .error a, .error b => decidable_of_iff (a = b) (by simp)
  | .ok _, .error _ => isFalse (by simp)
  | .error _, .ok _ => isFalse (by simp)

mutual

/-- The value `Node.total_size` computes (memoization changes no observable
value, see `totalSizeRun`).  `none` is a non-numeric outcome: a file whose
`size` is `None` returns `None`; a directory summing such a child raises
`TypeError`. -/
def totalSizeVal : Node → Option Nat
  | .mk _ d sz cs => if d = true ∧ sz = none then tvList cs else sz

/-- Python `sum(child.total_size() for child in children)`: `none` as soon
as a summand is non-numeric. -/
def tvList : List (Seg × Node) → Option Nat
  | [] => some 0
  | (_, c) :: rest =>
    match totalSizeVal c, tvList rest with
    | some a, some b => some (a + b)
    | _, _ => none

end

/-- Sum a list of optional sizes; `none` (Python `None`) poisons the sum
with a `TypeError`. -/
def sumOpt : List (Option Nat) → Option Nat
  | [] => some 0
  | none :: _ => none
  | some a :: rest =>
    match sumOpt rest with
    | some b => some (a + b)
    | none => none

mutual

/-- `Node.total_size` with its caching side effect: returns the updated
node together with the returned value; `none` models `TypeError` from
summing a `None` child size. -/
def totalSizeRun : Node → Option (Node × Option Nat)
  | .mk nm d sz cs =>
    if d = true ∧ sz = none then
      match runList cs with
      | some (cs', vals) =>
        match sumOpt vals with
        | some total => some (.mk nm d (some total) cs', some total)
        | none => none
      | none => none
    else some (.mk nm d sz cs, sz)

/-- Run `total_size` over a children dictionary, threading the cache
updates and collecting the returned values. -/
def runList : List (Seg × Node) → Option (List (Seg × Node) × List (Option Nat))
  | [] => some ([], [])
  | (k, c) :: rest =>
    match totalSizeRun c with
    | some (c', v) =>
      match runList rest with
      | some (rest', vs) => some ((k, c') :: rest', v :: vs)
      | none => none
    | none => none

end

/-- One row of the `disk_usage` report: displayed name (directories get a
trailing slash), total size, and percentage of the parent. -/
structure Row where
  name : List Char
  size : Nat
  size_perc : ℚ
deriving DecidableEq

/-- The `child_rows` generator: one row per child, in dictionary order.
`none` models `TypeError` on a `None` child size or `ZeroDivisionError`
when the parent size is zero. -/
def rowsOf : List (Seg × Node) → Nat → Option (List Row)
  | [], _ => some []
  | (k, c) :: rest, self_size =>
    match totalSizeVal c with
    | none => none
    | some s =>
      if self_size = 0 then none
      else
        match rowsOf rest self_size with
        | none => none
        | some rs =>
          some ({ name := k ++ (if c.is_dir then [ '/' ] else []), size := s,
                  size_perc := (100 * s : ℚ) / self_size } :: rs)

/-- `Node.disk_usage`: the parent total and the child rows sorted on the
single key `size`, descending (`df_children.sort('size', ascending=False)`:
pandas reverses the stable ascending indexer, modelled as the reverse of a
stable ascending sort).  `none` models an uncaught exception (file
receiver, `TypeError` on a `None` size, `ZeroDivisionError`). -/
def disk_usage (n : Node) : Option (Nat × List Row) :=
  if n.is_dir = true then
    match totalSizeVal n with
    | none => none
    | some self_size =>
      match rowsOf n.children self_size with
      | none => none
      | some rows =>
        some (self_size, (insSort (fun a b => decide (a.size ≤ b.size)) rows).reverse)
  else none

/-- One row of the parsed index `DataFrame` produced by `read_index`. -/
structure Record where
  size : Option Nat
  path_display : List Char
  path_lower : List Char
  is_dir : Bool
  path_list : List Seg
deriving DecidableEq

/-- `read_index`: lower-case the path, derive `is_dir` from a missing
size, split into segments, and sort rows by `path_lower`. -/
def read_index (rows : List (Option Nat × List Char)) : List Record :=
  insSort (fun a b => lexLe a.path_lower b.path_lower)
    (rows.map (fun r =>
      { size := r.1, path_display := r.2, path_lower := r.2.map Char.toLower,
        is_dir := r.1.isNone, path_list := split_path (r.2.map Char.toLower) }))

/-- The record `read_index` parses from the row `(3, "/a")`. -/
def fileRecA : Record := ⟨some 3, [ '/', 'a' ], [ '/', 'a' ], false, [[ 'a' ]]⟩

/-- A malformed record: declares itself a directory yet carries a size. -/
def dirRecWithSize : Record := ⟨some 5, [ '/', 'a' ], [ '/', 'a' ], true, [[ 'a' ]]⟩

/-- The root node `Node('', is_dir=True)`. -/
def rootNode : Node := .mk [] true none []

/-- The insertion loop of `make_tree`; a raised exception aborts the build. -/
def foldAdd : Option Node → List Record → Option Node
  | none, _ => none
  | some t, [] => some t
  | some t, r :: rest => foldAdd (addPath t r.path_list r.is_dir r.size) rest

/-- `make_tree`: insert every record into a fresh root. -/
def make_tree (records : List Record) : Option Node :=
  foldAdd (some rootNode) records

/-- Observation helper (not in the source): the node reached from `n` by
following the given child keys, ignoring `is_dir`. -/
def atSegs : Node → List Seg → Option Node
  | n, [] => some n
  | n, seg :: rest =>
    match lookupChild n.children seg with
    | some c => atSegs c rest
    | none => none

mutual

/-- All nodes of a tree, each paired with the child-key path from the
root used to reach it. -/
def subnodesAux : Node → List Seg → List (List Seg × Node)
  | .mk nm d sz cs, pfx => (pfx, .mk nm d sz cs) :: subnodesAuxL cs pfx

/-- Children part of `subnodesAux`. -/
def subnodesAuxL : List (Seg × Node) → List Seg → List (List Seg × Node)
  | [], _ => []
  | (k, c) :: rest, pfx => subnodesAux c (pfx ++ [k]) ++ subnodesAuxL rest pfx

end

/-- All nodes of a tree with their paths from the root. -/
def subnodes (n : Node) : List (List Seg × Node) := subnodesAux n []

/-- Join segments with `'/'` separators (no leading slash). -/
def joinSegs : List Seg → List Char
  | [] => []
  | [s] => s
  | s :: rest => s ++ '/' :: joinSegs rest

/-- `Node.path` computed along the reversed segment path: the root prints
as `'/'`, a child appends `'/' + name` to its parent's path (dropping a
bare `'/'` parent first). -/
def pathRev : List Seg → List Char
  | [] => [ '/' ]
  | n :: rest =>
    (if pathRev rest = [ '/' ] then [] else pathRev rest) ++ '/' :: n

/-- `Node.path` for the node reached by the given segments from the root. -/
def pythonPath (segs : List Seg) : List Char := pathRev segs.reverse

/-- The observable `(path, total_size)` pairs of a tree. -/
def sizePairs (t : Node) : List (List Char × Option Nat) :=
  (subnodes t).map (fun pr => (pythonPath pr.1, totalSizeVal pr.2))

/-- A serialized value: the persisted representation of a tree.
Modelled from the spec: the source delegates serialization to `pickle`
(external library code); §4.5 only requires an exact round-tripping
persisted representation, which this token tree realizes. -/
inductive SVal where
  | b (x : Bool)
  | o (x : Option Nat)
  | s (x : List Char)
  | l (xs : List SVal)

mutual

/-- Serialize a node: name, kind, size, and the serialized children. -/
def encodeNode : Node → SVal
  | .mk nm d sz cs => .l [.s nm, .b d, .o sz, .l (encodeEntries cs)]

/-- Serialize a children dictionary as a list of `(key, node)` entries. -/
def encodeEntries : List (Seg × Node) → List SVal
  | [] => []
  | (k, c) :: rest => .l [.s k, encodeNode c] :: encodeEntries rest

end

mutual

/-- Deserialize a node; `none` on a malformed representation. -/
def decodeNode : SVal → Option Node
  | .l [.s nm, .b d, .o sz, .l entries] =>
    match decodeEntries entries with
    | some cs => some (.mk nm d sz cs)
    | none => none
  | _ => none

/-- Deserialize a children dictionary. -/
def decodeEntries : List SVal → Option (List (Seg × Node))
  | [] => some []
  | .l [.s k, v] :: rest =>
    match decodeNode v, decodeEntries rest with
    | some c, some cs => some ((k, c) :: cs)
    | _, _ => none
  | _ :: _ => none

end

/-- Modelled from the spec: `save_tree_to_pickle` pickles the tree; the
persisted representation is opaque and must round-trip exactly (§4.5). -/
def save_tree_to_pickle : Node → SVal := encodeNode

/-- Modelled from the spec: `load_tree_from_pickle` deserializes the
persisted representation written by `save_tree_to_pickle`. -/
def load_tree_from_pickle : SVal → Option Node := decodeNode

/-! ### Dictionary lemmas -/

theorem lookupChild_setChild_self (cs : List (Seg × Node)) (k : Seg) (x : Node) :
    lookupChild (setChild cs k x) k = some x := by
  induction cs with
  | nil => simp [setChild, lookupChild]
  | cons kc rest ih =>
    obtain ⟨k0, c0⟩ := kc
    by_cases h : k0 = k
    · simp [setChild, h, lookupChild]
    · simp [setChild, h, lookupChild, ih]

theorem lookupChild_setChild_other (cs : List (Seg × Node)) (k k' : Seg) (x : Node)
    (h : k' ≠ k) : lookupChild (setChild cs k x) k' = lookupChild cs k' := by
  induction cs with
  | nil => simp [setChild, lookupChild, Ne.symm h]
  | cons kc rest ih =>
    obtain ⟨k0, c0⟩ := kc
    by_cases h0 : k0 = k
    · subst h0
      simp [setChild, lookupChild, Ne.symm h]
    · by_cases h1 : k0 = k'
      · subst h1
        simp [setChild, lookupChild, h]
      · simp [setChild, h0, lookupChild, h1, ih]

/-! ### Stable sort lemmas -/

theorem insSorted_perm (le : α → α → Bool) (x : α) (l : List α) :
    List.Perm (insSorted le x l) (x :: l) := by
  induction l with
  | nil => simp [insSorted]
  | cons y ys ih =>
    by_cases h : le x y = true
    · simp [insSorted, h]
    · simp only [insSorted, h]
      exact ((ih.cons y).trans (List.Perm.swap x y ys)).symm.symm

theorem insSort_perm (le : α → α → Bool) (l : List α) :
    List.Perm (insSort le l) l := by
  induction l with
  | nil => simp [insSort]
  | cons x xs ih =>
    exact (insSorted_perm le x (insSort le xs)).trans (ih.cons x)

theorem insSorted_pairwise (le : α → α → Bool)
    (htot : ∀ a b, le a b = true ∨ le b a = true)
    (htrans : ∀ a b c, le a b = true → le b c = true → le a c = true)
    (x : α) (l : List α) (hl : List.Pairwise (fun a b => le a b = true) l) :
    List.Pairwise (fun a b => le a b = true) (insSorted le x l) := by
  induction l with
  | nil => simp [insSorted]
  | cons y ys ih =>
    rcases hl with _ | ⟨hy, hys⟩
    by_cases h : le x y = true
    · simp only [insSorted, if_pos h]
      refine List.Pairwise.cons ?_ (List.Pairwise.cons hy hys)
      intro z hz
      rcases List.mem_cons.mp hz with rfl | hz'
      · exact h
      · exact htrans _ _ _ h (hy z hz')
    · simp only [insSorted, if_neg h]
      refine List.Pairwise.cons ?_ (ih hys)
      intro z hz
      have hz' := (insSorted_perm le x ys).mem_iff.mp hz
      rcases List.mem_cons.mp hz' with rfl | hz''
      · rcases htot z y with hh | hh
        · exact absurd hh h
        · exact hh
      · exact hy z hz''

theorem insSort_pairwise (le : α → α → Bool)
    (htot : ∀ a b, le a b = true ∨ le b a = true)
    (htrans : ∀ a b c, le a b = true → le b c = true → le a c = true)
    (l : List α) : List.Pairwise (fun a b => le a b = true) (insSort le l) := by
  induction l with
  | nil => simp [insSort]
  | cons x xs ih => exact insSorted_pairwise le htot htrans x (insSort le xs) ih

/-! ### Insertion and lookup -/

theorem addPath_last (q : List Seg) :
    ∀ (t : Node) (c : Seg) (d : Bool) (s : Option Nat) (t' : Node),
      addPath t (q ++ [c]) d s = some t' →
      find t' (q ++ [c]) = .ok (.mk c d s []) ∧
        atSegs t' (q ++ [c]) = some (.mk c d s []) := by
  induction q with
  | nil =>
    intro t c d s t' h
    cases t with
    | mk nm dcur sz cs =>
      by_cases hd : dcur = true
      · simp only [List.nil_append, addPath, if_pos hd, eq_self_iff_true, if_true,
          Option.some.injEq] at h
        subst h
        constructor
        · simp [find, Node.is_dir, hd, Node.children, lookupChild_setChild_self]
        · simp [atSegs, Node.children, lookupChild_setChild_self]
      · simp only [List.nil_append, addPath, if_neg hd] at h
        cases h
  | cons x q ih =>
    intro t c d s t' h
    cases t with
    | mk nm dcur sz cs =>
      by_cases hd : dcur = true
      · simp only [List.cons_append, addPath, List.append_eq, if_pos hd,
          if_neg (List.append_ne_nil_of_right_ne_nil q (List.cons_ne_nil c []))] at h
        cases hrec : addPath (childOr cs x) (q ++ [c]) d s with
        | none => rw [hrec] at h; cases h
        | some cur2 =>
          rw [hrec] at h
          simp only [Option.some.injEq] at h
          subst h
          have hih := ih (childOr cs x) c d s cur2 hrec
          constructor
          · simpa [find, Node.is_dir, hd, Node.children, lookupChild_setChild_self]
              using hih.1
          · simpa [atSegs, Node.children, lookupChild_setChild_self] using hih.2
      · simp only [List.cons_append, addPath, if_neg hd] at h
        cases h

/-! ### Serialization round-trip -/

mutual

theorem decode_encode : ∀ n : Node, decodeNode (encodeNode n) = some n
  | .mk nm d sz cs => by
    have h := decode_encodeL cs
    simp [encodeNode, decodeNode, h]

theorem decode_encodeL : ∀ cs : List (Seg × Node), decodeEntries (encodeEntries cs) = some cs
  | [] => rfl
  | (k, c) :: rest => by
    have h1 := decode_encode c
    have h2 := decode_encodeL rest
    simp [encodeEntries, decodeEntries, h1, h2]

end

/-! ### Claims C3, C4, C5, C6, C7, C8, C9 -/

/-- C4: `total_size` is idempotent — whenever a call returns node state
`n'` and value `v`, a second call on `n'` returns the same value and
leaves the node unchanged (the only side effect of the first call is
caching the computed size). -/
theorem claim_C4 (n n' : Node) (v : Option Nat) (h : totalSizeRun n = some (n', v)) :
    totalSizeRun n' = some (n', v) := by
  cases n with
  | mk nm d sz cs =>
    by_cases hc : d = true ∧ sz = none
    · simp only [totalSizeRun, if_pos hc] at h
      cases hr : runList cs with
      | none => rw [hr] at h; cases h
      | some pr =>
        obtain ⟨cs', vals⟩ := pr
        rw [hr] at h
        cases hs : sumOpt vals with
        | none => simp only [hs] at h; cases h
        | some total =>
          simp only [hs, Option.some.injEq, Prod.mk.injEq] at h
          obtain ⟨rfl, rfl⟩ := h
          simp [totalSizeRun, hc.1]
    · simp only [totalSizeRun, if_neg hc] at h
      simp only [Option.some.injEq, Prod.mk.injEq] at h
      obtain ⟨rfl, rfl⟩ := h
      simp only [totalSizeRun, if_neg hc]

/-- Witness for C4 at a concrete tree: caching the root total `3` and
calling again returns the same value on the unchanged node. -/
theorem claim_C4_witness :
    totalSizeRun (.mk [] true (some 3) [([ 'a' ], .mk [ 'a' ] false (some 3) [])]) =
      some (.mk [] true (some 3) [([ 'a' ], .mk [ 'a' ] false (some 3) [])], some 3) :=
  claim_C4 (.mk [] true none [([ 'a' ], .mk [ 'a' ] false (some 3) [])]) _ _ (by decide)

/-- C9: when the final segment of an inserted path already names an
existing node, `add_path` installs a freshly constructed node there
(empty children), so any previously inserted subtree below that path is
discarded. -/
theorem claim_C9 (t : Node) (q : List Seg) (c : Seg) (d : Bool) (s : Option Nat)
    (t' n₀ : Node) (hadd : addPath t (q ++ [c]) d s = some t')
    (_hprev : atSegs t (q ++ [c]) = some n₀) :
    atSegs t' (q ++ [c]) = some (.mk c d s []) :=
  (addPath_last q t c d s t' hadd).2

/-- Witness for C9: re-inserting `/a` as a directory record over an
existing `/a` directory that had a child `/a/b` leaves a childless
fresh node at `/a`. -/
theorem claim_C9_witness :
    atSegs (.mk [] true none [([ 'a' ], .mk [ 'a' ] true none [])]) [[ 'a' ]] =
      some (.mk [ 'a' ] true none []) :=
  claim_C9
    (.mk [] true none [([ 'a' ], .mk [ 'a' ] true none [([ 'b' ], .mk [ 'b' ] false (some 3) [])])])
    [] [ 'a' ] true none
    (.mk [] true none [([ 'a' ], .mk [ 'a' ] true none [])])
    (.mk [ 'a' ] true none [([ 'b' ], .mk [ 'b' ] false (some 3) [])])
    (by decide) (by decide)

/-- C6 (amended): `find` resolves `"/"` and the empty path to the
receiver; an inserted path (queried with exactly the stored, lowercase
segments) resolves to the freshly inserted node; an absent segment in a
directory raises `KeyError` (`PathNotFound`); descending into a file
raises `AttributeError` (`NotADirectory`).  Segment comparison is exact,
not case-normalized. -/
theorem claim_C6 :
    (∀ t : Node, findPath t [ '/' ] = .ok t ∧ findPath t [] = .ok t)
    ∧ (∀ (t : Node) (q : List Seg) (c : Seg) (d : Bool) (s : Option Nat) (t' : Node),
        addPath t (q ++ [c]) d s = some t' → find t' (q ++ [c]) = .ok (.mk c d s []))
    ∧ (∀ (n : Node) (seg : Seg) (rest : List Seg), n.is_dir = true →
        lookupChild n.children seg = none → find n (seg :: rest) = .error (.pathNotFound seg))
    ∧ (∀ (n : Node) (seg : Seg) (rest : List Seg), n.is_dir = false →
        find n (seg :: rest) = .error (.notADirectory seg)) := by
  refine ⟨fun t => ⟨rfl, rfl⟩, ?_, ?_, ?_⟩
  · intro t q c d s t' h
    exact (addPath_last q t c d s t' h).1
  · intro n seg rest hdir hlk
    simp [find, hdir, hlk]
  · intro n seg rest hdir
    simp [find, hdir]

/-- Witness for C6 at concrete trees: resolving an inserted `/a/b`,
a missing segment, and a file receiver. -/
theorem claim_C6_witness :
    find (.mk [] true none
        [([ 'a' ], .mk [ 'a' ] true none [([ 'b' ], .mk [ 'b' ] false (some 3) [])])])
      ([[ 'a' ]] ++ [[ 'b' ]]) = .ok (.mk [ 'b' ] false (some 3) []) ∧
    find (.mk [] true none []) [[ 'z' ]] = .error (.pathNotFound [ 'z' ]) ∧
    find (.mk [ 'f' ] false (some 1) []) [[ 'z' ]] = .error (.notADirectory [ 'z' ]) :=
  ⟨claim_C6.2.1 (.mk [] true none []) [[ 'a' ]] [ 'b' ] false (some 3)
      (.mk [] true none
        [([ 'a' ], .mk [ 'a' ] true none [([ 'b' ], .mk [ 'b' ] false (some 3) [])])])
      (by decide),
   claim_C6.2.2.1 (.mk [] true none []) [ 'z' ] [] (by decide) (by decide),
   claim_C6.2.2.2 (.mk [ 'f' ] false (some 1) []) [ 'z' ] [] (by decide)⟩

/-- Counterexample to C6 as stated: the path `/A` is ingested (keys are
lowercased to `a`), but `find` on the inserted path `/A` does not return
the node — comparison is exact, not case-normalized, so it raises
`KeyError`. -/
theorem claim_C6_counterexample :
    (make_tree (read_index [(some 5, [ '/', 'A' ])])).map (fun t => findPath t [ '/', 'A' ]) =
      some (.error (.pathNotFound [ 'A' ])) := by decide

/-- C8 (amended): ingestion performs no malformed-record validation and
raises no `MalformedRecord` error; instead, `read_index` derives
`is_dir` from the size being null, so every ingested record satisfies
`size` present iff not a directory by construction. -/
theorem claim_C8 (rows : List (Option Nat × List Char)) (r : Record)
    (h : r ∈ read_index rows) : r.is_dir = r.size.isNone := by
  have h2 := (insSort_perm (fun a b : Record => lexLe a.path_lower b.path_lower) _).mem_iff.mp h
  obtain ⟨a, _, rfl⟩ := List.mem_map.mp h2
  rfl

/-- Witness for C8: the record parsed from `(3, "/a")` is a file because
its size is present. -/
theorem claim_C8_witness : fileRecA.is_dir = fileRecA.size.isNone :=
  claim_C8 [(some 3, [ '/', 'a' ])] fileRecA (by decide)

/-- Counterexample to C8 as stated: a record declaring itself a directory
with a size is inserted by `make_tree`/`add_path` without any error and
enters the tree (its size even becomes the directory's cached size);
nothing fails fast. -/
theorem claim_C8_counterexample :
    (make_tree [dirRecWithSize]).map (fun t => atSegs t [[ 'a' ]]) =
      some (some (.mk [ 'a' ] true (some 5) [])) := by decide

/-- C3 (amended): an empty directory has total size `0` and `disk_usage`
returns an empty row set without dividing; but when the aggregate size is
`0` and children exist, the percentage computation divides by zero and
`disk_usage` raises `ZeroDivisionError` instead of reporting `0.0`. -/
theorem claim_C3 :
    (∀ nm : Seg, totalSizeVal (.mk nm true none []) = some 0 ∧
      disk_usage (.mk nm true none []) = some (0, []))
    ∧ (∀ (nm k : Seg) (c : Node) (cs : List (Seg × Node)),
        totalSizeVal (.mk nm true none ((k, c) :: cs)) = some 0 →
        disk_usage (.mk nm true none ((k, c) :: cs)) = none) := by
  constructor
  · intro nm
    exact ⟨rfl, rfl⟩
  · intro nm k c cs h
    have hc : ∃ s, totalSizeVal c = some s := by
      have h' : tvList ((k, c) :: cs) = some 0 := by
        simpa [totalSizeVal] using h
      simp only [tvList] at h'
      cases htv : totalSizeVal c with
      | none => rw [htv] at h'; cases h'
      | some s => exact ⟨s, rfl⟩
    obtain ⟨s, hs⟩ := hc
    simp [disk_usage, Node.is_dir, h, rowsOf, Node.children, hs]

/-- Witness for C3: a root of size `0` with one (empty-directory) child
makes `disk_usage` raise `ZeroDivisionError`. -/
theorem claim_C3_witness :
    disk_usage (.mk [] true none [([ 'a' ], .mk [ 'a' ] true none [])]) = none :=
  claim_C3.2 [] [ 'a' ] (.mk [ 'a' ] true none []) [] (by decide)

/-- Counterexample to C3 as stated: a directory of total size `0` with a
child produces no rows at all — `disk_usage` raises `ZeroDivisionError`
rather than defining the child percentage as `0.0`. -/
theorem claim_C3_counterexample :
    totalSizeVal (.mk [] true none [([ 'b' ], .mk [ 'b' ] true none [])]) = some 0 ∧
    disk_usage (.mk [] true none [([ 'b' ], .mk [ 'b' ] true none [])]) = none :=
  ⟨by decide, by decide⟩

/-- C5 (amended): `disk_usage` rows are sorted by size descending; the
sort key is the size alone, so names are never consulted — ties are not
broken by name ascending but left in reversed insertion order (pandas
reverses the stable ascending indexer for `ascending=False`). -/
theorem claim_C5 (n : Node) (self_size : Nat) (rows : List Row)
    (h : disk_usage n = some (self_size, rows)) :
    List.Pairwise (fun a b => b.size ≤ a.size) rows := by
  by_cases hd : n.is_dir = true
  · simp only [disk_usage, if_pos hd] at h
    cases htv : totalSizeVal n with
    | none => rw [htv] at h; cases h
    | some ss =>
      simp only [htv] at h
      cases hro : rowsOf n.children ss with
      | none => simp only [hro] at h; cases h
      | some rows0 =>
        simp only [hro, Option.some.injEq, Prod.mk.injEq] at h
        obtain ⟨rfl, rfl⟩ := h
        have hp := insSort_pairwise (fun a b : Row => decide (a.size ≤ b.size))
          (fun a b : Row => by
            rcases Nat.le_total a.size b.size with hh | hh
            · exact Or.inl (by simpa using hh)
            · exact Or.inr (by simpa using hh))
          (fun a b c hab hbc => by
            simp only [decide_eq_true_eq] at hab hbc ⊢
            omega)
          rows0
        rw [List.pairwise_reverse]
        exact hp.imp (fun hab => by simpa using hab)
  · simp only [disk_usage, if_neg hd] at h
    cases h

/-- Witness for C5 at a directory with three equal-sized children
inserted in order `b`, `c`, `a`: the reported rows (`a`, `c`, `b`) are
sorted by size descending. -/
theorem claim_C5_witness :
    List.Pairwise (fun a b : Row => b.size ≤ a.size)
      [{ name := [ 'a' ], size := 5, size_perc := 100 * ((5 : Nat) : ℚ) / ((15 : Nat) : ℚ) },
       { name := [ 'c' ], size := 5, size_perc := 100 * ((5 : Nat) : ℚ) / ((15 : Nat) : ℚ) },
       { name := [ 'b' ], size := 5, size_perc := 100 * ((5 : Nat) : ℚ) / ((15 : Nat) : ℚ) }] :=
  claim_C5 (.mk [] true none
      [([ 'b' ], .mk [ 'b' ] false (some 5) []), ([ 'c' ], .mk [ 'c' ] false (some 5) []),
       ([ 'a' ], .mk [ 'a' ] false (some 5) [])])
    15
    [{ name := [ 'a' ], size := 5, size_perc := 100 * ((5 : Nat) : ℚ) / ((15 : Nat) : ℚ) },
     { name := [ 'c' ], size := 5, size_perc := 100 * ((5 : Nat) : ℚ) / ((15 : Nat) : ℚ) },
     { name := [ 'b' ], size := 5, size_perc := 100 * ((5 : Nat) : ℚ) / ((15 : Nat) : ℚ) }]
    (by rfl)

/-- Counterexample to C5 as stated: three equal-sized children inserted
in order `b`, `c`, `a` are reported as `a`, `c`, `b` (the stable
ascending indexer reversed) — ties are not broken by name ascending,
which would give `a`, `b`, `c`. -/
theorem claim_C5_counterexample :
    (disk_usage (.mk [] true none
        [([ 'b' ], .mk [ 'b' ] false (some 5) []), ([ 'c' ], .mk [ 'c' ] false (some 5) []),
         ([ 'a' ], .mk [ 'a' ] false (some 5) [])])).map (fun pr => pr.2.map Row.name) =
      some [[ 'a' ], [ 'c' ], [ 'b' ]] ∧
    ¬ List.Pairwise (fun a b : List Char => lexLe a b = true) [[ 'a' ], [ 'c' ], [ 'b' ]] :=
  ⟨by decide, by decide⟩

/-- C7: the persisted representation round-trips exactly — deserializing
a just-serialized tree yields the identical tree, so `disk_usage` on
every node of the deserialized tree agrees with the original. -/
theorem claim_C7 (t : Node) :
    load_tree_from_pickle (save_tree_to_pickle t) = some t ∧
    (load_tree_from_pickle (save_tree_to_pickle t)).map
        (fun t2 => (subnodes t2).map (fun pr => disk_usage pr.2)) =
      some ((subnodes t).map (fun pr => disk_usage pr.2)) := by
  have h : load_tree_from_pickle (save_tree_to_pickle t) = some t := decode_encode t
  refine ⟨h, ?_⟩
  rw [h]
  rfl

/-! ### Invariants of trees built by `make_tree` over `read_index` output -/

/-- A valid tree key/name: a nonempty segment without `'/'`. -/
def goodSeg (s : Seg) : Prop := s ≠ [] ∧ '/' ∉ s

mutual

/-- Invariant of freshly built trees: directories have no cached size,
files have a size and no children, keys are distinct, each child is
stored under its own (valid) name. -/
def builtInv : Node → Prop
  | .mk _ d sz cs =>
    (d = true → sz = none) ∧
    (d = false → sz.isSome = true ∧ cs = []) ∧
    (cs.map Prod.fst).Nodup ∧ builtInvL cs

/-- Children part of `builtInv`. -/
def builtInvL : List (Seg × Node) → Prop
  | [] => True
  | (k, c) :: rest => (k = c.name ∧ goodSeg k) ∧ builtInv c ∧ builtInvL rest

end

/-- Well-formedness of an ingested record, as guaranteed by `read_index`:
segments are valid and the size is present iff the record is a file. -/
def recOK (r : Record) : Prop :=
  (∀ seg ∈ r.path_list, goodSeg seg) ∧
  (r.is_dir = true → r.size = none) ∧ (r.is_dir = false → r.size.isSome = true)

theorem builtInvL_mem : ∀ (cs : List (Seg × Node)) (k : Seg) (c : Node),
    builtInvL cs → (k, c) ∈ cs → (k = c.name ∧ goodSeg k) ∧ builtInv c := by
  intro cs
  induction cs with
  | nil => intro k c _ hm; cases hm
  | cons kc rest ih =>
    obtain ⟨k0, c0⟩ := kc
    intro k c hb hm
    obtain ⟨hhead, hc0, hrest⟩ := hb
    rcases List.mem_cons.mp hm with heq | hm'
    · rw [Prod.mk.injEq] at heq
      obtain ⟨rfl, rfl⟩ := heq
      exact ⟨hhead, hc0⟩
    · exact ih k c hrest hm'

theorem lookupChild_mem : ∀ (cs : List (Seg × Node)) (k : Seg) (c : Node),
    lookupChild cs k = some c → (k, c) ∈ cs := by
  intro cs
  induction cs with
  | nil => intro k c h; cases h
  | cons kc rest ih =>
    obtain ⟨k0, c0⟩ := kc
    intro k c h
    by_cases hk : k0 = k
    · subst hk
      simp only [lookupChild, eq_self_iff_true, if_true, Option.some.injEq] at h
      subst h
      exact List.mem_cons_self _ _
    · simp only [lookupChild, if_neg hk] at h
      exact List.mem_cons_of_mem _ (ih k c h)

theorem lookupChild_of_mem_nodup : ∀ (cs : List (Seg × Node)) (k : Seg) (c : Node),
    (cs.map Prod.fst).Nodup → (k, c) ∈ cs → lookupChild cs k = some c := by
  intro cs
  induction cs with
  | nil => intro k c _ hm; cases hm
  | cons kc rest ih =>
    obtain ⟨k0, c0⟩ := kc
    intro k c hnd hm
    rcases List.mem_cons.mp hm with heq | hm'
    · rw [Prod.mk.injEq] at heq
      obtain ⟨rfl, rfl⟩ := heq
      simp [lookupChild]
    · have hk : k0 ≠ k := by
        intro hk
        subst hk
        have : k0 ∈ rest.map Prod.fst := List.mem_map.mpr ⟨(k0, c), hm', rfl⟩
        exact (List.nodup_cons.mp hnd).1 this
      simp only [lookupChild, if_neg hk]
      exact ih k c (List.nodup_cons.mp hnd).2 hm'

theorem setChild_map_fst (cs : List (Seg × Node)) (k : Seg) (x : Node) :
    (setChild cs k x).map Prod.fst =
      if k ∈ cs.map Prod.fst then cs.map Prod.fst else cs.map Prod.fst ++ [k] := by
  induction cs with
  | nil => simp [setChild]
  | cons kc rest ih =>
    obtain ⟨k0, c0⟩ := kc
    by_cases hk : k0 = k
    · subst hk
      simp [setChild]
    · simp only [setChild, if_neg hk, List.map_cons, ih]
      by_cases hm : k ∈ rest.map Prod.fst
      · simp [hm, hk]
      · simp [hm, hk, Ne.symm hk]

theorem setChild_nodup (cs : List (Seg × Node)) (k : Seg) (x : Node)
    (h : (cs.map Prod.fst).Nodup) : ((setChild cs k x).map Prod.fst).Nodup := by
  rw [setChild_map_fst]
  by_cases hm : k ∈ cs.map Prod.fst
  · simpa [hm] using h
  · simp only [hm, if_neg, ite_false]
    exact List.Nodup.append h (List.nodup_singleton k) (by simpa using hm)

theorem builtInvL_setChild : ∀ (cs : List (Seg × Node)) (k : Seg) (x : Node),
    builtInvL cs → k = x.name → goodSeg k → builtInv x → builtInvL (setChild cs k x) := by
  intro cs
  induction cs with
  | nil => intro k x _ h1 h2 h3; exact ⟨⟨h1, h2⟩, h3, trivial⟩
  | cons kc rest ih =>
    obtain ⟨k0, c0⟩ := kc
    intro k x hb h1 h2 h3
    obtain ⟨hhead, hc0, hrest⟩ := hb
    by_cases hk : k0 = k
    · subst hk
      simp only [setChild, if_pos rfl]
      exact ⟨⟨h1, h2⟩, h3, hrest⟩
    · simp only [setChild, if_neg hk]
      exact ⟨hhead, hc0, ih k x hrest h1 h2 h3⟩

theorem addPath_name : ∀ (p : List Seg) (t : Node) (d : Bool) (s : Option Nat) (t' : Node),
    addPath t p d s = some t' → t'.name = t.name := by
  intro p t d s t' h
  cases p with
  | nil =>
    cases t with
    | mk nm dcur sz cs => simp [addPath] at h
  | cons seg rest =>
    cases t with
    | mk nm dcur sz cs =>
      by_cases hd : dcur = true
      · simp only [addPath, if_pos hd] at h
        by_cases hr : rest = []
        · simp only [if_pos hr, Option.some.injEq] at h
          subst h
          rfl
        · simp only [if_neg hr] at h
          cases hrec : addPath (childOr cs seg) rest d s with
          | none => rw [hrec] at h; cases h
          | some cur2 =>
            rw [hrec] at h
            simp only [Option.some.injEq] at h
            subst h
            rfl
      · simp only [addPath, if_neg hd] at h
        cases h

theorem addPath_builtInv : ∀ (p : List Seg) (t : Node) (d : Bool) (s : Option Nat) (t' : Node),
    builtInv t → (∀ seg ∈ p, goodSeg seg) → (d = true → s = none) →
    (d = false → s.isSome = true) → addPath t p d s = some t' → builtInv t' := by
  intro p
  induction p with
  | nil =>
    intro t d s t' _ _ _ _ h
    cases t with
    | mk nm dcur sz cs => simp [addPath] at h
  | cons seg rest ih =>
    intro t d s t' hinv hgood hd hf h
    cases t with
    | mk nm dcur sz cs =>
      by_cases hdc : dcur = true
      · simp only [addPath, if_pos hdc] at h
        obtain ⟨hdir, hfile, hnd, hL⟩ := hinv
        by_cases hr : rest = []
        · simp only [if_pos hr, Option.some.injEq] at h
          subst h
          have hfresh : builtInv (.mk seg d s []) := by
            refine ⟨hd, fun hdf => ⟨hf hdf, rfl⟩, by simp, trivial⟩
          refine ⟨hdir, ?_, setChild_nodup cs seg _ hnd, ?_⟩
          · intro hdf
            rw [hdc] at hdf
            cases hdf
          · exact builtInvL_setChild cs seg _ hL rfl (hgood seg (List.mem_cons_self _ _)) hfresh
        · simp only [if_neg hr] at h
          cases hrec : addPath (childOr cs seg) rest d s with
          | none => rw [hrec] at h; cases h
          | some cur2 =>
            rw [hrec] at h
            simp only [Option.some.injEq] at h
            subst h
            have hcur : builtInv (childOr cs seg) ∧ (childOr cs seg).name = seg := by
              unfold childOr
              cases hlk : lookupChild cs seg with
              | none =>
                exact ⟨⟨fun _ => rfl, by simp, by simp, trivial⟩, rfl⟩
              | some c =>
                have hm := lookupChild_mem cs seg c hlk
                have := builtInvL_mem cs seg c hL hm
                exact ⟨this.2, this.1.1.symm⟩
            have hcur2 : builtInv cur2 :=
              ih (childOr cs seg) d s cur2 hcur.1
                (fun sg hsg => hgood sg (List.mem_cons_of_mem _ hsg)) hd hf hrec
            have hname : cur2.name = seg := (addPath_name rest _ d s cur2 hrec).trans hcur.2
            refine ⟨hdir, ?_, setChild_nodup cs seg _ hnd, ?_⟩
            · intro hdf
              rw [hdc] at hdf
              cases hdf
            · exact builtInvL_setChild cs seg _ hL hname.symm
                (hgood seg (List.mem_cons_self _ _)) hcur2
      · simp only [addPath, if_neg hdc] at h
        cases h

theorem foldAdd_none : ∀ records : List Record, foldAdd none records = none := by
  intro records
  cases records <;> rfl

theorem foldAdd_builtInv : ∀ (records : List Record) (t0 t : Node),
    builtInv t0 → (∀ r ∈ records, recOK r) → foldAdd (some t0) records = some t →
    builtInv t := by
  intro records
  induction records with
  | nil =>
    intro t0 t h0 _ h
    simp only [foldAdd, Option.some.injEq] at h
    exact h ▸ h0
  | cons r rest ih =>
    intro t0 t h0 hok h
    simp only [foldAdd] at h
    cases hadd : addPath t0 r.path_list r.is_dir r.size with
    | none => rw [hadd, foldAdd_none] at h; cases h
    | some t1 =>
      rw [hadd] at h
      have hr := hok r (List.mem_cons_self _ _)
      have h1 : builtInv t1 :=
        addPath_builtInv r.path_list t0 r.is_dir r.size t1 h0 hr.1 hr.2.1 hr.2.2 hadd
      exact ih t1 t h1 (fun r' hr' => hok r' (List.mem_cons_of_mem _ hr')) h

theorem splitAll_cons (c : Char) (rest : List Char) :
    splitAll (c :: rest) = splitStep c (splitAll rest) := rfl

theorem splitAll_ne_nil : ∀ s : List Char, splitAll s ≠ [] := by
  intro s
  cases s with
  | nil => simp [splitAll]
  | cons c rest =>
    rw [splitAll_cons]
    simp only [splitStep]
    split <;> simp

theorem splitAll_no_slash : ∀ (s : List Char) (g : List Char),
    g ∈ splitAll s → '/' ∉ g := by
  intro s
  induction s with
  | nil =>
    intro g hg
    simp only [splitAll, List.foldr_nil, List.mem_singleton] at hg
    subst hg
    simp
  | cons c rest ih =>
    intro g hg
    rw [splitAll_cons] at hg
    simp only [splitStep] at hg
    by_cases hc : c = '/'
    · rw [if_pos hc] at hg
      rcases List.mem_cons.mp hg with rfl | hg'
      · simp
      · exact ih g hg'
    · rw [if_neg hc] at hg
      cases hsp : splitAll rest with
      | nil => exact absurd hsp (splitAll_ne_nil rest)
      | cons h0 tl =>
        rw [hsp] at hg
        simp only [List.headD_cons, List.tail_cons] at hg
        rcases List.mem_cons.mp hg with rfl | hg'
        · intro hmem
          rcases List.mem_cons.mp hmem with heq | hmem'
          · exact hc heq.symm
          · exact ih h0 (hsp ▸ List.mem_cons_self _ _) hmem'
        · exact ih g (hsp ▸ List.mem_cons_of_mem _ hg')

theorem split_path_goodSeg (s : List Char) : ∀ seg ∈ split_path s, goodSeg seg := by
  intro seg hseg
  simp only [split_path, List.mem_filter, decide_eq_true_eq] at hseg
  obtain ⟨hm, hlen⟩ := hseg
  exact ⟨by intro he; subst he; simp at hlen, splitAll_no_slash s seg hm⟩

theorem read_index_recOK (rows : List (Option Nat × List Char)) :
    ∀ r ∈ read_index rows, recOK r := by
  intro r hr
  have h2 := (insSort_perm (fun a b : Record => lexLe a.path_lower b.path_lower) _).mem_iff.mp hr
  obtain ⟨a, _, rfl⟩ := List.mem_map.mp h2
  refine ⟨split_path_goodSeg _, ?_, ?_⟩
  · intro h
    simpa [Option.isNone_iff_eq_none] using h
  · intro h
    cases ha : a.1 with
    | none => simp [ha] at h
    | some v => simp

theorem make_tree_builtInv (records : List Record) (t : Node)
    (hok : ∀ r ∈ records, recOK r) (h : make_tree records = some t) : builtInv t :=
  foldAdd_builtInv records rootNode t ⟨fun _ => rfl, by simp, by simp, trivial⟩ hok h

/-! ### Subnode enumeration and lookup -/

theorem subnodesAuxL_mem : ∀ (cs : List (Seg × Node)) (pfx : List Seg) (pr : List Seg × Node),
    pr ∈ subnodesAuxL cs pfx → ∃ kc, kc ∈ cs ∧ pr ∈ subnodesAux kc.2 (pfx ++ [kc.1]) := by
  intro cs
  induction cs with
  | nil => intro pfx pr h; simp [subnodesAuxL] at h
  | cons kc rest ih =>
    obtain ⟨k, c⟩ := kc
    intro pfx pr h
    simp only [subnodesAuxL] at h
    rcases List.mem_append.mp h with h1 | h2
    · exact ⟨(k, c), List.mem_cons_self _ _, h1⟩
    · obtain ⟨kc', hkc', hpr⟩ := ih pfx pr h2
      exact ⟨kc', List.mem_cons_of_mem _ hkc', hpr⟩

theorem subnodes_find (t : Node) : builtInv t → ∀ (pfx : List Seg) (pr : List Seg × Node),
    pr ∈ subnodesAux t pfx →
    ∃ tail, pr.1 = pfx ++ tail ∧ find t tail = .ok pr.2 ∧ (∀ s ∈ tail, goodSeg s) := by
  induction t using nodeInd with
  | h nm d sz cs ih =>
    intro hinv pfx pr hpr
    obtain ⟨hdir, hfile, hnd, hL⟩ := hinv
    simp only [subnodesAux] at hpr
    rcases List.mem_cons.mp hpr with heq | h2
    · subst heq
      exact ⟨[], by simp, rfl, by simp⟩
    · obtain ⟨kc, hkc, hpr2⟩ := subnodesAuxL_mem cs pfx pr h2
      obtain ⟨k, c⟩ := kc
      obtain ⟨⟨hkname, hkgood⟩, hcinv⟩ := builtInvL_mem cs k c hL hkc
      have hd : d = true := by
        cases hdq : d
        · exact absurd ((hfile hdq).2 ▸ hkc) (List.not_mem_nil _)
        · rfl
      obtain ⟨tail', h1, h2', h3⟩ := ih (k, c) hkc hcinv (pfx ++ [k]) pr hpr2
      refine ⟨k :: tail', ?_, ?_, ?_⟩
      · rw [h1]
        simp
      · simp [find, Node.is_dir, hd, Node.children,
          lookupChild_of_mem_nodup cs k c hnd hkc, h2']
      · intro s hs
        rcases List.mem_cons.mp hs with rfl | hs'
        · exact hkgood
        · exact h3 s hs'

theorem subnodes_builtInv (t : Node) : builtInv t → ∀ (pfx : List Seg) (pr : List Seg × Node),
    pr ∈ subnodesAux t pfx → builtInv pr.2 := by
  induction t using nodeInd with
  | h nm d sz cs ih =>
    intro hinv pfx pr hpr
    simp only [subnodesAux] at hpr
    rcases List.mem_cons.mp hpr with heq | h2
    · subst heq
      exact hinv
    · obtain ⟨kc, hkc, hpr2⟩ := subnodesAuxL_mem cs pfx pr h2
      obtain ⟨k, c⟩ := kc
      obtain ⟨_, hcinv⟩ := builtInvL_mem cs k c hinv.2.2.2 hkc
      exact ih (k, c) hkc hcinv (pfx ++ [k]) pr hpr2

/-! ### Aggregate sizes on built trees -/

theorem tvList_eq_sum : ∀ cs : List (Seg × Node),
    (∀ kc ∈ cs, (totalSizeVal kc.2).isSome = true) →
    tvList cs = some ((cs.map (fun kc => (totalSizeVal kc.2).getD 0)).sum) := by
  intro cs
  induction cs with
  | nil => intro _; simp [tvList]
  | cons kc rest ih =>
    obtain ⟨k, c⟩ := kc
    intro h
    obtain ⟨v, hv⟩ := Option.isSome_iff_exists.mp (h (k, c) (List.mem_cons_self _ _))
    have hrest := ih (fun x hx => h x (List.mem_cons_of_mem _ hx))
    simp [tvList, hv, hrest]

theorem builtInv_tv_isSome (n : Node) : builtInv n → (totalSizeVal n).isSome = true := by
  induction n using nodeInd with
  | h nm d sz cs ih =>
    intro hinv
    obtain ⟨hdir, hfile, hnd, hL⟩ := hinv
    cases hd : d
    · obtain ⟨hsz, hcs⟩ := hfile hd
      simp [totalSizeVal, hd, hsz]
    · have hall : ∀ kc ∈ cs, (totalSizeVal kc.2).isSome = true := by
        intro kc hkc
        obtain ⟨k2, c2⟩ := kc
        exact ih (k2, c2) hkc (builtInvL_mem cs k2 c2 hL hkc).2
      simp [totalSizeVal, hd, hdir hd, tvList_eq_sum cs hall]

/-- C2: in a tree built by `make_tree` from `read_index` output, every
directory's total size is exactly the sum of its direct children's total
sizes (all of which are defined), and every file's total size is exactly
the size stored for it at insertion. -/
theorem claim_C2 (rows : List (Option Nat × List Char)) (t : Node)
    (h : make_tree (read_index rows) = some t) :
    ∀ pr ∈ subnodes t,
      (pr.2.is_dir = true →
        totalSizeVal pr.2 =
          some ((pr.2.children.map (fun kc => (totalSizeVal kc.2).getD 0)).sum) ∧
        ∀ kc ∈ pr.2.children, (totalSizeVal kc.2).isSome = true)
      ∧ (pr.2.is_dir = false → totalSizeVal pr.2 = pr.2.size ∧ pr.2.size.isSome = true) := by
  intro pr hpr
  have htinv : builtInv t := make_tree_builtInv _ t (read_index_recOK rows) h
  have hinv : builtInv pr.2 := subnodes_builtInv t htinv [] pr hpr
  cases hn : pr.2 with
  | mk nm d sz cs =>
    rw [hn] at hinv
    obtain ⟨hdir, hfile, hnd, hL⟩ := hinv
    constructor
    · intro hd
      simp only [Node.is_dir] at hd
      have hall : ∀ kc ∈ cs, (totalSizeVal kc.2).isSome = true := by
        intro kc hkc
        obtain ⟨k2, c2⟩ := kc
        exact builtInv_tv_isSome c2 (builtInvL_mem cs k2 c2 hL hkc).2
      refine ⟨?_, by simpa [Node.children] using hall⟩
      simp [totalSizeVal, Node.children, hd, hdir hd, tvList_eq_sum cs hall]
    · intro hd
      simp only [Node.is_dir] at hd
      obtain ⟨hsz, hcs⟩ := hfile hd
      simp [totalSizeVal, Node.size, hd, hsz]

/-- Witness for C2 on the tree built from the single row `(3, "/a")`:
the root directory sums to its child's size and the file `/a` reports
its inserted size `3`. -/
theorem claim_C2_witness :
    ((Node.mk [] true none [([ 'a' ], Node.mk [ 'a' ] false (some 3) [])]).is_dir = true →
      totalSizeVal (Node.mk [] true none [([ 'a' ], Node.mk [ 'a' ] false (some 3) [])]) =
        some (((Node.mk [] true none
            [([ 'a' ], Node.mk [ 'a' ] false (some 3) [])]).children.map
          (fun kc => (totalSizeVal kc.2).getD 0)).sum) ∧
      ∀ kc ∈ (Node.mk [] true none
          [([ 'a' ], Node.mk [ 'a' ] false (some 3) [])]).children,
        (totalSizeVal kc.2).isSome = true)
    ∧ ((Node.mk [] true none [([ 'a' ], Node.mk [ 'a' ] false (some 3) [])]).is_dir = false →
      totalSizeVal (Node.mk [] true none [([ 'a' ], Node.mk [ 'a' ] false (some 3) [])]) =
        (Node.mk [] true none [([ 'a' ], Node.mk [ 'a' ] false (some 3) [])]).size ∧
      (Node.mk [] true none [([ 'a' ], Node.mk [ 'a' ] false (some 3) [])]).size.isSome = true) :=
  claim_C2 [(some 3, [ '/', 'a' ])]
    (Node.mk [] true none [([ 'a' ], Node.mk [ 'a' ] false (some 3) [])]) (by decide)
    ([], Node.mk [] true none [([ 'a' ], Node.mk [ 'a' ] false (some 3) [])]) (by decide)

/-! ### Path strings -/

theorem joinSegs_ne_nil (s : Seg) (l : List Seg) (hs : s ≠ []) : joinSegs (s :: l) ≠ [] := by
  cases l with
  | nil => simpa [joinSegs] using hs
  | cons t l' =>
    simp only [joinSegs]
    exact List.append_ne_nil_of_right_ne_nil _ (List.cons_ne_nil _ _)

theorem joinSegs_append_one : ∀ (l : List Seg) (n : Seg), l ≠ [] →
    joinSegs (l ++ [n]) = joinSegs l ++ '/' :: n := by
  intro l
  induction l with
  | nil => intro n h; cases h rfl
  | cons s l' ih =>
    intro n _
    cases l' with
    | nil => simp [joinSegs]
    | cons t l'' =>
      have h2 := ih n (List.cons_ne_nil _ _)
      simp only [List.cons_append, List.append_eq, joinSegs] at h2 ⊢
      rw [h2]
      simp

theorem pathRev_eq : ∀ rsegs : List Seg, (∀ s ∈ rsegs, s ≠ []) →
    pathRev rsegs = '/' :: joinSegs rsegs.reverse := by
  intro rsegs
  induction rsegs with
  | nil => intro _; simp [pathRev, joinSegs]
  | cons n rest ih =>
    intro hgood
    have hrest := ih (fun s hs => hgood s (List.mem_cons_of_mem _ hs))
    cases rest with
    | nil => simp [pathRev, joinSegs]
    | cons m rest' =>
      have hne : joinSegs (m :: rest').reverse ≠ [] := by
        rcases hrev : (m :: rest').reverse with _ | ⟨s0, l0⟩
        · simp at hrev
        · refine joinSegs_ne_nil s0 l0 ?_
          have hs0 : s0 ∈ (m :: rest').reverse := hrev ▸ List.mem_cons_self _ _
          exact hgood s0 (List.mem_cons_of_mem _ (List.mem_reverse.mp hs0))
      have hcond : pathRev (m :: rest') ≠ [ '/' ] := by
        rw [hrest]
        intro hx
        injection hx with _ hx2
        exact hne hx2
      have hrevne : (m :: rest').reverse ≠ [] := by simp
      calc pathRev (n :: m :: rest')
          = (if pathRev (m :: rest') = [ '/' ] then [] else pathRev (m :: rest')) ++ '/' :: n :=
            rfl
        _ = pathRev (m :: rest') ++ '/' :: n := by rw [if_neg hcond]
        _ = ('/' :: joinSegs (m :: rest').reverse) ++ '/' :: n := by rw [hrest]
        _ = '/' :: (joinSegs (m :: rest').reverse ++ '/' :: n) := by simp
        _ = '/' :: joinSegs ((m :: rest').reverse ++ [n]) := by
            rw [joinSegs_append_one _ n hrevne]
        _ = '/' :: joinSegs ((n :: m :: rest').reverse) := by simp

theorem pythonPath_eq (segs : List Seg) (h : ∀ s ∈ segs, s ≠ []) :
    pythonPath segs = '/' :: joinSegs segs := by
  unfold pythonPath
  rw [pathRev_eq segs.reverse (fun s hs => h s (List.mem_reverse.mp hs)),
    List.reverse_reverse]

theorem foldr_splitStep_seg : ∀ seg : List Char, '/' ∉ seg →
    ∀ (g : List Char) (gs : List (List Char)),
      List.foldr splitStep (g :: gs) seg = (seg ++ g) :: gs := by
  intro seg
  induction seg with
  | nil => intro _ g gs; simp
  | cons c s' ih =>
    intro hns g gs
    have hc : ¬c = '/' := fun h => hns (h ▸ List.mem_cons_self _ _)
    have hs' : '/' ∉ s' := fun h => hns (List.mem_cons_of_mem _ h)
    simp only [List.foldr_cons, ih hs' g gs, splitStep, if_neg hc, List.headD_cons,
      List.tail_cons, List.cons_append]

theorem split_path_slash_cons (x : List Char) : split_path ('/' :: x) = split_path x := by
  simp [split_path, splitAll_cons, splitStep]

theorem split_path_join : ∀ segs : List Seg, (∀ s ∈ segs, goodSeg s) →
    split_path (joinSegs segs) = segs := by
  intro segs
  induction segs with
  | nil => intro _; decide
  | cons s rest ih =>
    intro hgood
    have hs := hgood s (List.mem_cons_self _ _)
    have hlen : decide (0 < s.length) = true := by
      simp [List.length_pos, hs.1]
    have hrest := ih (fun x hx => hgood x (List.mem_cons_of_mem _ hx))
    cases rest with
    | nil =>
      have h1 : splitAll s = [s ++ []] := foldr_splitStep_seg s hs.2 [] []
      simp only [joinSegs, split_path, h1, List.append_nil, List.filter_cons, hlen,
        if_true, List.filter_nil]
    | cons t rest' =>
      have h1 : splitAll (s ++ '/' :: joinSegs (t :: rest')) =
          (s ++ []) :: splitAll (joinSegs (t :: rest')) := by
        unfold splitAll
        rw [List.foldr_append, List.foldr_cons]
        have h2 : splitStep '/' (List.foldr splitStep [[]] (joinSegs (t :: rest'))) =
            [] :: List.foldr splitStep [[]] (joinSegs (t :: rest')) := by
          simp [splitStep]
        rw [h2]
        exact foldr_splitStep_seg s hs.2 [] _
      have hstep : split_path (joinSegs (s :: t :: rest')) =
          s :: split_path (joinSegs (t :: rest')) := by
        simp only [joinSegs, split_path, h1, List.append_nil, List.filter_cons, hlen, if_true]
      rw [hstep, hrest]

theorem split_path_pythonPath (segs : List Seg) (h : ∀ s ∈ segs, goodSeg s) :
    split_path (pythonPath segs) = segs := by
  rw [pythonPath_eq segs (fun s hs => (h s hs).1), split_path_slash_cons,
    split_path_join segs h]

/-- C10: in a tree built by `make_tree` over `read_index` output, every
node's `path()` is `'/'` for the root and otherwise the `'/'`-joined
sequence of its (lowercased, as stored) segment names prefixed by `'/'`,
and `find` on that path returns the very same node. -/
theorem claim_C10 (rows : List (Option Nat × List Char)) (t : Node)
    (h : make_tree (read_index rows) = some t) :
    ∀ pr ∈ subnodes t,
      pythonPath pr.1 = '/' :: joinSegs pr.1 ∧ findPath t (pythonPath pr.1) = .ok pr.2 := by
  intro pr hpr
  have htinv : builtInv t := make_tree_builtInv _ t (read_index_recOK rows) h
  obtain ⟨tail, htail, hfind, hgood⟩ := subnodes_find t htinv [] pr hpr
  simp only [List.nil_append] at htail
  subst htail
  refine ⟨pythonPath_eq _ (fun s hs => (hgood s hs).1), ?_⟩
  unfold findPath
  rw [split_path_pythonPath _ hgood]
  exact hfind

/-- Witness for C10 on the tree built from the single row `(3, "/A")`:
the file node's path is `/a` (lowercased) and `find` resolves it back. -/
theorem claim_C10_witness :
    pythonPath [[ 'a' ]] = '/' :: joinSegs [[ 'a' ]] ∧
    findPath (Node.mk [] true none [([ 'a' ], Node.mk [ 'a' ] false (some 3) [])])
        (pythonPath [[ 'a' ]]) = .ok (Node.mk [ 'a' ] false (some 3) []) :=
  claim_C10 [(some 3, [ '/', 'A' ])]
    (Node.mk [] true none [([ 'a' ], Node.mk [ 'a' ] false (some 3) [])]) (by decide)
    ([[ 'a' ]], Node.mk [ 'a' ] false (some 3) []) (by decide)

/-! ### Insertion-order independence (C1) -/

/-- A directory record for `/a`. -/
def dirRecA : Record := ⟨none, [ '/', 'a' ], [ '/', 'a' ], true, [[ 'a' ]]⟩

/-- A file record for `/a/b` of size `3`. -/
def fileRecAB : Record :=
  ⟨some 3, [ '/', 'a', '/', 'b' ], [ '/', 'a', '/', 'b' ], false, [[ 'a' ], [ 'b' ]]⟩

/-- A file record for `/b` of size `4`. -/
def fileRecB : Record := ⟨some 4, [ '/', 'b' ], [ '/', 'b' ], false, [[ 'b' ]]⟩

/-- Counterexample to C1 as stated: the records `{/a (dir), /a/b (file, 3)}`
inserted in the two orders give `total_size(root) = 3` and `0`
respectively — inserting the ancestor after the descendant discards the
descendant, so the two permutations do not produce identical trees. -/
theorem claim_C1_counterexample :
    List.Perm [dirRecA, fileRecAB] [fileRecAB, dirRecA] ∧
    (make_tree [dirRecA, fileRecAB]).map totalSizeVal = some (some 3) ∧
    (make_tree [fileRecAB, dirRecA]).map totalSizeVal = some (some 0) :=
  ⟨List.Perm.swap fileRecAB dirRecA [], by decide, by decide⟩

/-- `a` is a (possibly improper) leading portion of `b`, segment-wise. -/
def pfxB : List Seg → List Seg → Bool
  | [], _ => true
  | _ :: _, [] => false
  | a :: as, b :: bs => a = b && pfxB as bs

/-- Neither path is a leading portion of the other. -/
def nonPfx (a b : List Seg) : Prop := pfxB a b = false ∧ pfxB b a = false

instance (a b : List Seg) : Decidable (nonPfx a b) :=
  inferInstanceAs (Decidable (pfxB a b = false ∧ pfxB b a = false))

/-- Lift a node relation to possibly-raising results: both raise, or both
return related nodes. -/
def ORel (R : Node → Node → Prop) : Option Node → Option Node → Prop
  | some a, some b => R a b
  | none, none => True
  | _, _ => False

mutual

/-- Keys are duplicate-free throughout the tree. -/
def ndDeep : Node → Prop
  | .mk _ _ _ cs => (cs.map Prod.fst).Nodup ∧ ndDeepL cs

/-- Children part of `ndDeep`. -/
def ndDeepL : List (Seg × Node) → Prop
  | [] => True
  | (_, c) :: rest => ndDeep c ∧ ndDeepL rest

end

/-- Equivalence of trees up to the (observation-irrelevant) insertion
order of sibling dictionaries: same name, kind and size, same key sets,
and equivalent children under each key. -/
inductive NEq : Node → Node → Prop where
  | mk : ∀ (nm : Seg) (d : Bool) (sz : Option Nat) (cs1 cs2 : List (Seg × Node)),
      (cs1.map Prod.fst).Nodup →
      (cs2.map Prod.fst).Nodup →
      List.Perm (cs1.map Prod.fst) (cs2.map Prod.fst) →
      (∀ (k : Seg) (c1 c2 : Node),
        lookupChild cs1 k = some c1 → lookupChild cs2 k = some c2 → NEq c1 c2) →
      NEq (.mk nm d sz cs1) (.mk nm d sz cs2)

theorem ndDeepL_mem : ∀ (cs : List (Seg × Node)) (k : Seg) (c : Node),
    ndDeepL cs → (k, c) ∈ cs → ndDeep c := by
  intro cs
  induction cs with
  | nil => intro k c _ hm; cases hm
  | cons kc rest ih =>
    obtain ⟨k0, c0⟩ := kc
    intro k c hnd hm
    rcases List.mem_cons.mp hm with heq | hm'
    · rw [Prod.mk.injEq] at heq
      exact heq.2 ▸ hnd.1
    · exact ih k c hnd.2 hm'

theorem lookupChild_isSome : ∀ (cs : List (Seg × Node)) (k : Seg),
    (lookupChild cs k).isSome = true ↔ k ∈ cs.map Prod.fst := by
  intro cs
  induction cs with
  | nil => intro k; simp [lookupChild]
  | cons kc rest ih =>
    obtain ⟨k0, c0⟩ := kc
    intro k
    by_cases hk : k0 = k
    · subst hk
      simp [lookupChild]
    · simp [lookupChild, hk, ih, Ne.symm hk]

theorem lookupChild_none : ∀ (cs : List (Seg × Node)) (k : Seg),
    lookupChild cs k = none ↔ k ∉ cs.map Prod.fst := by
  intro cs k
  rw [← lookupChild_isSome]
  cases lookupChild cs k <;> simp

theorem NEq_refl : ∀ n : Node, ndDeep n → NEq n n := by
  intro n
  induction n using nodeInd with
  | h nm d sz cs ih =>
    intro hnd
    refine NEq.mk nm d sz cs cs hnd.1 hnd.1 (List.Perm.refl _) ?_
    intro k c1 c2 h1 h2
    rw [h1] at h2
    injection h2 with h2
    subst h2
    exact ih (k, c1) (lookupChild_mem cs k c1 h1) (ndDeepL_mem cs k c1 hnd.2
      (lookupChild_mem cs k c1 h1))

theorem NEq_trans : ∀ a b c : Node, NEq a b → NEq b c → NEq a c := by
  intro a
  induction a using nodeInd with
  | h nm d sz cs1 ih =>
    intro b c hab hbc
    cases hab with
    | mk _ _ _ _ cs2 hnd1 hnd2 hkp12 hpw12 =>
      cases hbc with
      | mk _ _ _ _ cs3 _ hnd3 hkp23 hpw23 =>
        refine NEq.mk nm d sz cs1 cs3 hnd1 hnd3 (hkp12.trans hkp23) ?_
        intro k c1 c3 h1 h3
        have hk2 : k ∈ cs2.map Prod.fst :=
          hkp12.mem_iff.mp ((lookupChild_isSome cs1 k).mp (by simp [h1]))
        obtain ⟨c2, h2⟩ := Option.isSome_iff_exists.mp ((lookupChild_isSome cs2 k).mpr hk2)
        exact ih (k, c1) (lookupChild_mem cs1 k c1 h1) c2 c3 (hpw12 k c1 c2 h1 h2)
          (hpw23 k c2 c3 h2 h3)

theorem ORel_trans {R : Node → Node → Prop}
    (htrans : ∀ a b c, R a b → R b c → R a c) :
    ∀ o1 o2 o3, ORel R o1 o2 → ORel R o2 o3 → ORel R o1 o3 := by
  intro o1 o2 o3 h12 h23
  cases o1 <;> cases o2 <;> cases o3
  all_goals first
    | exact trivial
    | exact False.elim h12
    | exact False.elim h23
    | exact htrans _ _ _ h12 h23

theorem setChild_setChild (cs : List (Seg × Node)) (k : Seg) (a b : Node) :
    setChild (setChild cs k a) k b = setChild cs k b := by
  induction cs with
  | nil => simp [setChild]
  | cons kc rest ih =>
    obtain ⟨k0, c0⟩ := kc
    by_cases hk : k0 = k
    · subst hk
      simp [setChild]
    · simp [setChild, hk, ih]

theorem setChild_keys_perm (cs1 cs2 : List (Seg × Node)) (k : Seg) (x1 x2 : Node)
    (hkp : List.Perm (cs1.map Prod.fst) (cs2.map Prod.fst)) :
    List.Perm ((setChild cs1 k x1).map Prod.fst) ((setChild cs2 k x2).map Prod.fst) := by
  rw [setChild_map_fst, setChild_map_fst]
  by_cases hm : k ∈ cs1.map Prod.fst
  · rw [if_pos hm, if_pos (hkp.mem_iff.mp hm)]
    exact hkp
  · rw [if_neg hm, if_neg (fun hx => hm (hkp.mem_iff.mpr hx))]
    exact hkp.append (List.Perm.refl [k])

theorem ndDeepL_setChild : ∀ (cs : List (Seg × Node)) (k : Seg) (x : Node),
    ndDeepL cs → ndDeep x → ndDeepL (setChild cs k x) := by
  intro cs
  induction cs with
  | nil => intro k x _ hx; exact ⟨hx, trivial⟩
  | cons kc rest ih =>
    obtain ⟨k0, c0⟩ := kc
    intro k x hnd hx
    by_cases hk : k0 = k
    · subst hk
      simp only [setChild, eq_self_iff_true, if_true]
      exact ⟨hx, hnd.2⟩
    · simp only [setChild, if_neg hk]
      exact ⟨hnd.1, ih k x hnd.2 hx⟩

theorem addPath_ndDeep : ∀ (p : List Seg) (t : Node) (d : Bool) (s : Option Nat) (t' : Node),
    ndDeep t → addPath t p d s = some t' → ndDeep t' := by
  intro p
  induction p with
  | nil =>
    intro t d s t' _ h
    cases t with
    | mk nm dcur sz cs => simp [addPath] at h
  | cons seg rest ih =>
    intro t d s t' hnd h
    cases t with
    | mk nm dcur sz cs =>
      by_cases hdc : dcur = true
      · simp only [addPath, if_pos hdc] at h
        by_cases hr : rest = []
        · simp only [if_pos hr, Option.some.injEq] at h
          subst h
          exact ⟨setChild_nodup cs seg _ hnd.1,
            ndDeepL_setChild cs seg _ hnd.2 ⟨List.nodup_nil, trivial⟩⟩
        · simp only [if_neg hr] at h
          cases hrec : addPath (childOr cs seg) rest d s with
          | none => rw [hrec] at h; cases h
          | some cur2 =>
            rw [hrec] at h
            simp only [Option.some.injEq] at h
            subst h
            have hcur : ndDeep (childOr cs seg) := by
              unfold childOr
              cases hlk : lookupChild cs seg with
              | none => exact ⟨List.nodup_nil, trivial⟩
              | some c => exact ndDeepL_mem cs seg c hnd.2 (lookupChild_mem cs seg c hlk)
            exact ⟨setChild_nodup cs seg _ hnd.1,
              ndDeepL_setChild cs seg _ hnd.2 (ih _ d s cur2 hcur hrec)⟩
      · simp only [addPath, if_neg hdc] at h
        cases h

theorem NEq_set (nm : Seg) (d : Bool) (sz : Option Nat) (cs1 cs2 : List (Seg × Node))
    (k : Seg) (x1 x2 : Node)
    (hnd1 : (cs1.map Prod.fst).Nodup) (hnd2 : (cs2.map Prod.fst).Nodup)
    (hkp : List.Perm (cs1.map Prod.fst) (cs2.map Prod.fst))
    (hpw : ∀ (k' : Seg) (c1 c2 : Node),
      lookupChild cs1 k' = some c1 → lookupChild cs2 k' = some c2 → NEq c1 c2)
    (hx : NEq x1 x2) :
    NEq (.mk nm d sz (setChild cs1 k x1)) (.mk nm d sz (setChild cs2 k x2)) := by
  refine NEq.mk nm d sz _ _ (setChild_nodup cs1 k x1 hnd1) (setChild_nodup cs2 k x2 hnd2)
    (setChild_keys_perm cs1 cs2 k x1 x2 hkp) ?_
  intro k' c1 c2 h1 h2
  by_cases hk' : k' = k
  · subst hk'
    rw [lookupChild_setChild_self] at h1 h2
    injection h1 with h1
    injection h2 with h2
    subst h1
    subst h2
    exact hx
  · rw [lookupChild_setChild_other cs1 k k' x1 hk'] at h1
    rw [lookupChild_setChild_other cs2 k k' x2 hk'] at h2
    exact hpw k' c1 c2 h1 h2

theorem addPath_cong : ∀ (p : List Seg) (t1 t2 : Node) (d : Bool) (s : Option Nat),
    NEq t1 t2 → ORel NEq (addPath t1 p d s) (addPath t2 p d s) := by
  intro p
  induction p with
  | nil =>
    intro t1 t2 d s h
    cases t1 with
    | mk nm1 d1 sz1 cs1 =>
      cases t2 with
      | mk nm2 d2 sz2 cs2 => exact trivial
  | cons seg rest ih =>
    intro t1 t2 d s h
    cases h with
    | mk nm dc sz cs1 cs2 hnd1 hnd2 hkp hpw =>
      by_cases hdc : dc = true
      · by_cases hr : rest = []
        · simp only [addPath, if_pos hdc, if_pos hr]
          exact NEq_set nm dc sz cs1 cs2 seg _ _ hnd1 hnd2 hkp hpw
            (NEq_refl _ ⟨List.nodup_nil, trivial⟩)
        · have hcur : NEq (childOr cs1 seg) (childOr cs2 seg) := by
            unfold childOr
            cases hlk1 : lookupChild cs1 seg with
            | some c1 =>
              have hk2 : seg ∈ cs2.map Prod.fst :=
                hkp.mem_iff.mp ((lookupChild_isSome cs1 seg).mp (by simp [hlk1]))
              obtain ⟨c2, hlk2⟩ :=
                Option.isSome_iff_exists.mp ((lookupChild_isSome cs2 seg).mpr hk2)
              rw [hlk2]
              exact hpw seg c1 c2 hlk1 hlk2
            | none =>
              have hk2 : seg ∉ cs2.map Prod.fst :=
                fun hx => by
                  have := (lookupChild_none cs1 seg).mp hlk1
                  exact this (hkp.mem_iff.mpr hx)
              rw [(lookupChild_none cs2 seg).mpr hk2]
              exact NEq_refl _ ⟨List.nodup_nil, trivial⟩
          have hrec := ih (childOr cs1 seg) (childOr cs2 seg) d s hcur
          simp only [addPath, if_pos hdc, if_neg hr]
          cases h1 : addPath (childOr cs1 seg) rest d s with
          | none =>
            cases h2 : addPath (childOr cs2 seg) rest d s with
            | none => exact trivial
            | some c2' => rw [h1, h2] at hrec; exact False.elim hrec
          | some c1' =>
            cases h2 : addPath (childOr cs2 seg) rest d s with
            | none => rw [h1, h2] at hrec; exact False.elim hrec
            | some c2' =>
              rw [h1, h2] at hrec
              exact NEq_set nm dc sz cs1 cs2 seg c1' c2' hnd1 hnd2 hkp hpw hrec
      · simp only [addPath, if_neg hdc]
        exact trivial

/-- The node that ends up under the head key of an inserted path: a fresh
leaf for a one-segment path, otherwise the recursive insertion into the
(possibly implicitly created) child. -/
def headResult (cs : List (Seg × Node)) (x : Seg) (p' : List Seg) (d : Bool)
    (s : Option Nat) : Option Node :=
  if p' = [] then some (.mk x d s []) else addPath (childOr cs x) p' d s

theorem addPath_head (nm : Seg) (sz : Option Nat) (cs : List (Seg × Node)) (x : Seg)
    (p' : List Seg) (d : Bool) (s : Option Nat) :
    addPath (.mk nm true sz cs) (x :: p') d s =
      (headResult cs x p' d s).map (fun c => .mk nm true sz (setChild cs x c)) := by
  by_cases hr : p' = []
  · simp [addPath, headResult, hr]
  · simp only [addPath, headResult, if_neg hr, eq_self_iff_true, if_true]
    cases addPath (childOr cs x) p' d s <;> simp

theorem childOr_set_self (cs : List (Seg × Node)) (x : Seg) (c : Node) :
    childOr (setChild cs x c) x = c := by
  unfold childOr
  rw [lookupChild_setChild_self]

theorem childOr_set_other (cs : List (Seg × Node)) (x y : Seg) (c : Node) (h : x ≠ y) :
    childOr (setChild cs y c) x = childOr cs x := by
  unfold childOr
  rw [lookupChild_setChild_other cs y x c h]

theorem headResult_set_self (cs : List (Seg × Node)) (x : Seg) (p' : List Seg)
    (d : Bool) (s : Option Nat) (c : Node) (hp : p' ≠ []) :
    headResult (setChild cs x c) x p' d s = addPath c p' d s := by
  unfold headResult
  rw [if_neg hp, childOr_set_self]

theorem headResult_set_other (cs : List (Seg × Node)) (x y : Seg) (p' : List Seg)
    (d : Bool) (s : Option Nat) (c : Node) (h : x ≠ y) :
    headResult (setChild cs y c) x p' d s = headResult cs x p' d s := by
  unfold headResult
  by_cases hr : p' = []
  · rw [if_pos hr, if_pos hr]
  · rw [if_neg hr, if_neg hr, childOr_set_other cs x y c h]

theorem childOr_ndDeep (cs : List (Seg × Node)) (x : Seg) (hnd : ndDeepL cs) :
    ndDeep (childOr cs x) := by
  unfold childOr
  cases hlk : lookupChild cs x with
  | none => exact ⟨List.nodup_nil, trivial⟩
  | some c => exact ndDeepL_mem cs x c hnd (lookupChild_mem cs x c hlk)

theorem headResult_ndDeep (cs : List (Seg × Node)) (x : Seg) (p' : List Seg) (d : Bool)
    (s : Option Nat) (c : Node) (hnd : ndDeepL cs) :
    headResult cs x p' d s = some c → ndDeep c := by
  unfold headResult
  by_cases hr : p' = []
  · rw [if_pos hr]
    intro h
    injection h with h
    subst h
    exact ⟨List.nodup_nil, trivial⟩
  · rw [if_neg hr]
    intro h
    exact addPath_ndDeep p' _ d s c (childOr_ndDeep cs x hnd) h

theorem lookupChild_ndDeep (cs : List (Seg × Node)) (k : Seg) (c : Node)
    (hnd : ndDeepL cs) (h : lookupChild cs k = some c) : ndDeep c :=
  ndDeepL_mem cs k c hnd (lookupChild_mem cs k c h)

theorem setChild_comm_NEq (nm : Seg) (db : Bool) (sz : Option Nat)
    (cs : List (Seg × Node)) (x y : Seg) (c1 c2 : Node) (hxy : x ≠ y)
    (hnd : (cs.map Prod.fst).Nodup) (hdeepL : ndDeepL cs)
    (h1 : ndDeep c1) (h2 : ndDeep c2) :
    NEq (.mk nm db sz (setChild (setChild cs x c1) y c2))
        (.mk nm db sz (setChild (setChild cs y c2) x c1)) := by
  refine NEq.mk nm db sz _ _
    (setChild_nodup _ y c2 (setChild_nodup cs x c1 hnd))
    (setChild_nodup _ x c1 (setChild_nodup cs y c2 hnd)) ?_ ?_
  · rw [setChild_map_fst (setChild cs x c1) y c2, setChild_map_fst cs x c1,
      setChild_map_fst (setChild cs y c2) x c1, setChild_map_fst cs y c2]
    by_cases hx : x ∈ cs.map Prod.fst <;> by_cases hy : y ∈ cs.map Prod.fst
    · simp [hx, hy]
    · simp [hx, hy, hxy, Ne.symm hxy]
    · simp [hx, hy, hxy, Ne.symm hxy]
    · simp only [hx, hy, if_neg, ite_false, List.mem_append, List.mem_singleton,
        Ne.symm hxy, hxy, or_false, false_or, ite_false]
      rw [List.append_assoc, List.append_assoc]
      exact List.Perm.append_left _ (List.Perm.swap y x [])
  · intro k' a b ha hb
    by_cases hky : k' = y
    · subst hky
      rw [lookupChild_setChild_self] at ha
      rw [lookupChild_setChild_other _ x k' c1 (Ne.symm hxy), lookupChild_setChild_self] at hb
      injection ha with ha
      injection hb with hb
      subst ha
      subst hb
      exact NEq_refl c2 h2
    · by_cases hkx : k' = x
      · subst hkx
        rw [lookupChild_setChild_other _ y k' c2 hky, lookupChild_setChild_self] at ha
        rw [lookupChild_setChild_self] at hb
        injection ha with ha
        injection hb with hb
        subst ha
        subst hb
        exact NEq_refl c1 h1
      · rw [lookupChild_setChild_other _ y k' c2 hky,
          lookupChild_setChild_other _ x k' c1 hkx] at ha
        rw [lookupChild_setChild_other _ x k' c1 hkx,
          lookupChild_setChild_other _ y k' c2 hky] at hb
        rw [ha] at hb
        injection hb with hb
        subst hb
        exact NEq_refl a (lookupChild_ndDeep cs k' a hdeepL ha)

theorem addPath_comm : ∀ (p1 p2 : List Seg) (t : Node) (d1 : Bool) (s1 : Option Nat)
    (d2 : Bool) (s2 : Option Nat), ndDeep t → nonPfx p1 p2 →
    ORel NEq ((addPath t p1 d1 s1).bind (fun u => addPath u p2 d2 s2))
      ((addPath t p2 d2 s2).bind (fun u => addPath u p1 d1 s1)) := by
  intro p1
  induction p1 with
  | nil =>
    intro p2 t d1 s1 d2 s2 _ hnp
    exact absurd hnp.1 (by simp [pfxB])
  | cons x p1' ih =>
    intro p2 t d1 s1 d2 s2 hnd hnp
    cases p2 with
    | nil => exact absurd hnp.2 (by simp [pfxB])
    | cons y p2' =>
      cases t with
      | mk nm dc sz cs =>
        by_cases hdc : dc = true
        · subst hdc
          have hpwrefl : ∀ (k' : Seg) (a b : Node), lookupChild cs k' = some a →
              lookupChild cs k' = some b → NEq a b := by
            intro k' a b ha hb
            rw [ha] at hb
            injection hb with hb
            subst hb
            exact NEq_refl a (lookupChild_ndDeep cs k' a hnd.2 ha)
          by_cases hxy : x = y
          · subst hxy
            have hp1' : p1' ≠ [] := by
              intro hcon
              subst hcon
              have h1 := hnp.1
              simp [pfxB] at h1
            have hp2' : p2' ≠ [] := by
              intro hcon
              subst hcon
              have h2 := hnp.2
              simp [pfxB] at h2
            have hnp' : nonPfx p1' p2' := by
              constructor
              · have h1 := hnp.1
                simpa [pfxB] using h1
              · have h2 := hnp.2
                simpa [pfxB] using h2
            have hIH := ih p2' (childOr cs x) d1 s1 d2 s2 (childOr_ndDeep cs x hnd.2) hnp'
            rw [addPath_head nm sz cs x p1' d1 s1, addPath_head nm sz cs x p2' d2 s2]
            rw [show headResult cs x p1' d1 s1 = addPath (childOr cs x) p1' d1 s1 from by
              unfold headResult; rw [if_neg hp1']]
            rw [show headResult cs x p2' d2 s2 = addPath (childOr cs x) p2' d2 s2 from by
              unfold headResult; rw [if_neg hp2']]
            cases hA1 : addPath (childOr cs x) p1' d1 s1 with
            | none =>
              cases hA2 : addPath (childOr cs x) p2' d2 s2 with
              | none =>
                simp only [Option.map_none', Option.none_bind]
                exact trivial
              | some c2' =>
                rw [hA1, hA2] at hIH
                simp only [Option.none_bind, Option.some_bind] at hIH
                simp only [Option.map_none', Option.none_bind, Option.map_some',
                  Option.some_bind]
                rw [addPath_head nm sz (setChild cs x c2') x p1' d1 s1,
                  headResult_set_self cs x p1' d1 s1 c2' hp1']
                cases hB : addPath c2' p1' d1 s1 with
                | none =>
                  simp only [Option.map_none']
                  exact trivial
                | some u =>
                  rw [hB] at hIH
                  exact False.elim hIH
            | some c1' =>
              cases hA2 : addPath (childOr cs x) p2' d2 s2 with
              | none =>
                rw [hA1, hA2] at hIH
                simp only [Option.none_bind, Option.some_bind] at hIH
                simp only [Option.map_none', Option.none_bind, Option.map_some',
                  Option.some_bind]
                rw [addPath_head nm sz (setChild cs x c1') x p2' d2 s2,
                  headResult_set_self cs x p2' d2 s2 c1' hp2']
                cases hB : addPath c1' p2' d2 s2 with
                | none =>
                  simp only [Option.map_none']
                  exact trivial
                | some u =>
                  rw [hB] at hIH
                  exact False.elim hIH
              | some c2' =>
                rw [hA1, hA2] at hIH
                simp only [Option.some_bind] at hIH
                simp only [Option.map_some', Option.some_bind]
                rw [addPath_head nm sz (setChild cs x c1') x p2' d2 s2,
                  headResult_set_self cs x p2' d2 s2 c1' hp2',
                  addPath_head nm sz (setChild cs x c2') x p1' d1 s1,
                  headResult_set_self cs x p1' d1 s1 c2' hp1']
                cases hB1 : addPath c1' p2' d2 s2 with
                | none =>
                  cases hB2 : addPath c2' p1' d1 s1 with
                  | none =>
                    simp only [Option.map_none']
                    exact trivial
                  | some u2 =>
                    rw [hB1, hB2] at hIH
                    exact False.elim hIH
                | some u1 =>
                  cases hB2 : addPath c2' p1' d1 s1 with
                  | none =>
                    rw [hB1, hB2] at hIH
                    exact False.elim hIH
                  | some u2 =>
                    rw [hB1, hB2] at hIH
                    simp only [Option.map_some']
                    rw [setChild_setChild cs x c1' u1, setChild_setChild cs x c2' u2]
                    exact NEq_set nm true sz cs cs x u1 u2 hnd.1 hnd.1
                      (List.Perm.refl _) hpwrefl hIH
          · rw [addPath_head nm sz cs x p1' d1 s1, addPath_head nm sz cs y p2' d2 s2]
            cases hR1 : headResult cs x p1' d1 s1 with
            | none =>
              cases hR2 : headResult cs y p2' d2 s2 with
              | none =>
                simp only [Option.map_none', Option.none_bind]
                exact trivial
              | some c2 =>
                simp only [Option.map_none', Option.none_bind, Option.map_some',
                  Option.some_bind]
                rw [addPath_head nm sz (setChild cs y c2) x p1' d1 s1,
                  headResult_set_other cs x y p1' d1 s1 c2 hxy, hR1]
                simp only [Option.map_none']
                exact trivial
            | some c1 =>
              cases hR2 : headResult cs y p2' d2 s2 with
              | none =>
                simp only [Option.map_none', Option.none_bind, Option.map_some',
                  Option.some_bind]
                rw [addPath_head nm sz (setChild cs x c1) y p2' d2 s2,
                  headResult_set_other cs y x p2' d2 s2 c1 (Ne.symm hxy), hR2]
                simp only [Option.map_none']
                exact trivial
              | some c2 =>
                simp only [Option.map_some', Option.some_bind]
                rw [addPath_head nm sz (setChild cs x c1) y p2' d2 s2,
                  headResult_set_other cs y x p2' d2 s2 c1 (Ne.symm hxy), hR2,
                  addPath_head nm sz (setChild cs y c2) x p1' d1 s1,
                  headResult_set_other cs x y p1' d1 s1 c2 hxy, hR1]
                simp only [Option.map_some']
                exact setChild_comm_NEq nm true sz cs x y c1 c2 hxy hnd.1 hnd.2
                  (headResult_ndDeep cs x p1' d1 s1 c1 hnd.2 hR1)
                  (headResult_ndDeep cs y p2' d2 s2 c2 hnd.2 hR2)
        · simp only [addPath, if_neg hdc, Option.none_bind]
          exact trivial

theorem foldAdd_two (t : Node) (a b : Record) (l : List Record) :
    foldAdd (some t) (a :: b :: l) =
      foldAdd ((addPath t a.path_list a.is_dir a.size).bind
        (fun u => addPath u b.path_list b.is_dir b.size)) l := by
  cases hadd : addPath t a.path_list a.is_dir a.size with
  | none =>
    simp only [foldAdd, hadd, Option.none_bind, foldAdd_none]
  | some t1 =>
    simp only [foldAdd, hadd, Option.some_bind]

theorem foldAdd_cong : ∀ (l : List Record) (o1 o2 : Option Node),
    ORel NEq o1 o2 → ORel NEq (foldAdd o1 l) (foldAdd o2 l) := by
  intro l
  induction l with
  | nil =>
    intro o1 o2 h
    cases o1 <;> cases o2 <;> simpa [foldAdd] using h
  | cons r rest ih =>
    intro o1 o2 h
    cases o1 with
    | none =>
      cases o2 with
      | none => simp only [foldAdd_none]; exact trivial
      | some t2 => exact False.elim h
    | some t1 =>
      cases o2 with
      | none => exact False.elim h
      | some t2 =>
        simp only [foldAdd]
        exact ih _ _ (addPath_cong r.path_list t1 t2 r.is_dir r.size h)

theorem foldAdd_perm : ∀ (l1 l2 : List Record), List.Perm l1 l2 →
    ∀ t : Node, List.Pairwise (fun r1 r2 => nonPfx r1.path_list r2.path_list) l1 →
    ndDeep t → ORel NEq (foldAdd (some t) l1) (foldAdd (some t) l2) := by
  intro l1 l2 hperm
  induction hperm with
  | nil =>
    intro t _ hnd
    exact NEq_refl t hnd
  | cons r hp ihp =>
    intro t hpw hnd
    simp only [foldAdd]
    cases hadd : addPath t r.path_list r.is_dir r.size with
    | none => rw [foldAdd_none, foldAdd_none]; exact trivial
    | some t1 =>
      exact ihp t1 (List.pairwise_cons.mp hpw).2 (addPath_ndDeep _ t _ _ t1 hnd hadd)
  | swap a b l =>
    intro t hpw hnd
    have hba : nonPfx b.path_list a.path_list :=
      (List.pairwise_cons.mp hpw).1 a (List.mem_cons_self _ _)
    rw [foldAdd_two, foldAdd_two]
    exact foldAdd_cong l _ _
      (addPath_comm b.path_list a.path_list t b.is_dir b.size a.is_dir a.size hnd hba)
  | trans h12 h23 ih1 ih2 =>
    intro t hpw hnd
    have hpw2 := (h12.pairwise_iff (fun h => ⟨h.2, h.1⟩)).mp hpw
    exact ORel_trans NEq_trans _ _ _ (ih1 t hpw hnd) (ih2 t hpw2 hnd)

/-- Remove the first occurrence of an entry from a children list. -/
def eraseFirst : List (Seg × Node) → (Seg × Node) → List (Seg × Node)
  | [], _ => []
  | a :: rest, kc => if a = kc then rest else a :: eraseFirst rest kc

theorem perm_cons_eraseFirst : ∀ (cs : List (Seg × Node)) (kc : Seg × Node),
    kc ∈ cs → List.Perm cs (kc :: eraseFirst cs kc) := by
  intro cs kc
  induction cs with
  | nil => intro h; cases h
  | cons a rest ih =>
    intro h
    by_cases ha : a = kc
    · subst ha
      simp [eraseFirst]
    · rcases List.mem_cons.mp h with heq | hmem
      · exact absurd heq.symm ha
      · simp only [eraseFirst, if_neg ha]
        exact ((ih hmem).cons a).trans (List.Perm.swap kc a _)

theorem mem_eraseFirst : ∀ (cs : List (Seg × Node)) (kc x : Seg × Node),
    x ∈ eraseFirst cs kc → x ∈ cs := by
  intro cs kc
  induction cs with
  | nil => intro x h; cases h
  | cons a rest ih =>
    intro x h
    by_cases ha : a = kc
    · subst ha
      simp only [eraseFirst, eq_self_iff_true, if_true] at h
      exact List.mem_cons_of_mem _ h
    · simp only [eraseFirst, if_neg ha] at h
      rcases List.mem_cons.mp h with heq | hmem
      · exact heq ▸ List.mem_cons_self _ _
      · exact List.mem_cons_of_mem _ (ih x hmem)

theorem assoc_pairs (R : Node → Node → Prop) : ∀ cs1 cs2 : List (Seg × Node),
    (cs1.map Prod.fst).Nodup → (cs2.map Prod.fst).Nodup →
    List.Perm (cs1.map Prod.fst) (cs2.map Prod.fst) →
    (∀ k c1 c2, lookupChild cs1 k = some c1 → lookupChild cs2 k = some c2 → R c1 c2) →
    ∃ cs2', List.Perm cs2 cs2' ∧
      List.Forall₂ (fun a b => a.1 = b.1 ∧ R a.2 b.2) cs1 cs2' := by
  intro cs1
  induction cs1 with
  | nil =>
    intro cs2 _ _ hkp _
    have h0 : cs2.map Prod.fst = [] := List.Perm.eq_nil (by simpa using hkp.symm)
    exact ⟨[], by simp [List.map_eq_nil_iff.mp h0], List.Forall₂.nil⟩
  | cons hd rest ih =>
    obtain ⟨k, c⟩ := hd
    intro cs2 hnd1 hnd2 hkp hpw
    have hk2 : k ∈ cs2.map Prod.fst := hkp.mem_iff.mp (by simp)
    obtain ⟨c2, hlk2⟩ := Option.isSome_iff_exists.mp ((lookupChild_isSome cs2 k).mpr hk2)
    have hmem2 : (k, c2) ∈ cs2 := lookupChild_mem cs2 k c2 hlk2
    have hperm2 : List.Perm cs2 ((k, c2) :: eraseFirst cs2 (k, c2)) :=
      perm_cons_eraseFirst cs2 (k, c2) hmem2
    have hkeys2 : List.Perm (cs2.map Prod.fst)
        (k :: (eraseFirst cs2 (k, c2)).map Prod.fst) := by
      simpa using hperm2.map Prod.fst
    have hnd1' : (rest.map Prod.fst).Nodup := (List.nodup_cons.mp (by simpa using hnd1)).2
    have hknotin : k ∉ rest.map Prod.fst := (List.nodup_cons.mp (by simpa using hnd1)).1
    have hkpr : List.Perm (rest.map Prod.fst) ((eraseFirst cs2 (k, c2)).map Prod.fst) := by
      have h1 : List.Perm (k :: rest.map Prod.fst)
          (k :: (eraseFirst cs2 (k, c2)).map Prod.fst) := by
        refine List.Perm.trans ?_ hkeys2
        simpa using hkp
      exact h1.cons_inv
    have hnd2' : ((eraseFirst cs2 (k, c2)).map Prod.fst).Nodup :=
      (List.nodup_cons.mp (hkeys2.nodup_iff.mp hnd2)).2
    have hpw' : ∀ k' c1' c2', lookupChild rest k' = some c1' →
        lookupChild (eraseFirst cs2 (k, c2)) k' = some c2' → R c1' c2' := by
      intro k' c1' c2' h1 h2
      have hk'ne : ¬k = k' := by
        intro he
        subst he
        exact hknotin ((lookupChild_isSome rest k).mp (by simp [h1]))
      have hl1 : lookupChild ((k, c) :: rest) k' = some c1' := by
        simp only [lookupChild, if_neg hk'ne]
        exact h1
      have hmem2' : (k', c2') ∈ cs2 :=
        mem_eraseFirst cs2 (k, c2) _ (lookupChild_mem _ k' c2' h2)
      exact hpw k' c1' c2' hl1 (lookupChild_of_mem_nodup cs2 k' c2' hnd2 hmem2')
    obtain ⟨cs2'', hp'', hf''⟩ := ih (eraseFirst cs2 (k, c2)) hnd1' hnd2' hkpr hpw'
    refine ⟨(k, c2) :: cs2'', hperm2.trans (hp''.cons _), List.Forall₂.cons ⟨rfl, ?_⟩ hf''⟩
    exact hpw k c c2 (by simp [lookupChild]) hlk2

theorem tvList_eq_sumOpt : ∀ cs : List (Seg × Node),
    tvList cs = sumOpt (cs.map (fun kc => totalSizeVal kc.2)) := by
  intro cs
  induction cs with
  | nil => rfl
  | cons kc rest ih =>
    obtain ⟨k, c⟩ := kc
    simp only [tvList, List.map_cons, ih]
    cases htv : totalSizeVal c <;>
      cases hs : sumOpt (rest.map (fun kc => totalSizeVal kc.2)) <;>
      simp [sumOpt, hs]

theorem sumOpt_perm : ∀ l1 l2 : List (Option Nat), List.Perm l1 l2 → sumOpt l1 = sumOpt l2 := by
  intro l1 l2 hp
  induction hp with
  | nil => rfl
  | cons o hp ih => cases o <;> simp [sumOpt, ih]
  | swap a b l =>
    cases a <;> cases b <;> cases hs : sumOpt l <;>
      simp [sumOpt, hs, Nat.add_left_comm, Nat.add_comm]
  | trans h12 h23 ih1 ih2 => exact ih1.trans ih2

theorem forall2_tv_map : ∀ cs1 cs2' : List (Seg × Node),
    List.Forall₂ (fun a b => a.1 = b.1 ∧ NEq a.2 b.2) cs1 cs2' →
    (∀ kc ∈ cs1, ∀ m, NEq kc.2 m → totalSizeVal kc.2 = totalSizeVal m) →
    cs1.map (fun kc => totalSizeVal kc.2) = cs2'.map (fun kc => totalSizeVal kc.2) := by
  intro cs1 cs2' hf
  induction hf with
  | nil => intro _; rfl
  | cons hab hf ih =>
    intro hih
    simp only [List.map_cons, List.cons.injEq]
    exact ⟨hih _ (List.mem_cons_self _ _) _ hab.2,
      ih (fun kc hkc m hm => hih kc (List.mem_cons_of_mem _ hkc) m hm)⟩

theorem tv_congr : ∀ n1 n2 : Node, NEq n1 n2 → totalSizeVal n1 = totalSizeVal n2 := by
  intro n1
  induction n1 using nodeInd with
  | h nm d sz cs1 ih =>
    intro n2 h
    cases h with
    | mk _ _ _ _ cs2 hnd1 hnd2 hkp hpw =>
      by_cases hc : d = true ∧ sz = none
      · simp only [totalSizeVal, if_pos hc]
        obtain ⟨cs2', hp2, hf2⟩ := assoc_pairs NEq cs1 cs2 hnd1 hnd2 hkp hpw
        have hmap := forall2_tv_map cs1 cs2' hf2 (fun kc hkc m hm => ih kc hkc m hm)
        rw [tvList_eq_sumOpt, tvList_eq_sumOpt, hmap]
        exact sumOpt_perm _ _ ((hp2.map _).symm)
      · simp only [totalSizeVal, if_neg hc]

theorem subnodesAuxL_perm : ∀ cs cs' : List (Seg × Node), List.Perm cs cs' →
    ∀ pfx, List.Perm (subnodesAuxL cs pfx) (subnodesAuxL cs' pfx) := by
  intro cs cs' hp
  induction hp with
  | nil => intro pfx; exact List.Perm.refl _
  | cons x hp ih =>
    intro pfx
    obtain ⟨k, c⟩ := x
    simp only [subnodesAuxL]
    exact List.Perm.append_left _ (ih pfx)
  | swap x y l =>
    intro pfx
    obtain ⟨k1, c1⟩ := x
    obtain ⟨k2, c2⟩ := y
    simp only [subnodesAuxL]
    rw [← List.append_assoc, ← List.append_assoc]
    exact List.Perm.append_right _ List.perm_append_comm
  | trans h12 h23 ih1 ih2 => intro pfx; exact (ih1 pfx).trans (ih2 pfx)

/-- The observation extracted from one subnode: its path string and its
total size. -/
def obsPair (pr : List Seg × Node) : List Char × Option Nat :=
  (pythonPath pr.1, totalSizeVal pr.2)

theorem forall2_subnodes_map : ∀ cs1 cs2' : List (Seg × Node),
    List.Forall₂ (fun a b => a.1 = b.1 ∧ NEq a.2 b.2) cs1 cs2' →
    (∀ kc ∈ cs1, ∀ (m : Node) (pfx2 : List Seg), NEq kc.2 m →
      List.Perm ((subnodesAux kc.2 pfx2).map obsPair) ((subnodesAux m pfx2).map obsPair)) →
    ∀ pfx, List.Perm ((subnodesAuxL cs1 pfx).map obsPair)
      ((subnodesAuxL cs2' pfx).map obsPair) := by
  intro cs1 cs2' hf
  induction hf with
  | nil => intro _ pfx; exact List.Perm.refl _
  | @cons a b l1 l2 hab hf ih =>
    intro hih pfx
    obtain ⟨k1, c1⟩ := a
    obtain ⟨k2, c2⟩ := b
    obtain ⟨hk, hne⟩ := hab
    simp only at hk
    subst hk
    simp only [subnodesAuxL, List.map_append]
    exact List.Perm.append (hih (k1, c1) (List.mem_cons_self _ _) c2 (pfx ++ [k1]) hne)
      (ih (fun kc hkc m pfx2 hm => hih kc (List.mem_cons_of_mem _ hkc) m pfx2 hm) pfx)

theorem subnodes_pairs_congr : ∀ n1 n2 : Node, NEq n1 n2 → ∀ pfx,
    List.Perm ((subnodesAux n1 pfx).map obsPair) ((subnodesAux n2 pfx).map obsPair) := by
  intro n1
  induction n1 using nodeInd with
  | h nm d sz cs1 ih =>
    intro n2 h pfx
    cases h with
    | mk _ _ _ _ cs2 hnd1 hnd2 hkp hpw =>
      simp only [subnodesAux, List.map_cons]
      have hhead : obsPair (pfx, Node.mk nm d sz cs1) = obsPair (pfx, Node.mk nm d sz cs2) := by
        unfold obsPair
        rw [tv_congr _ _ (NEq.mk nm d sz cs1 cs2 hnd1 hnd2 hkp hpw)]
      rw [hhead]
      refine List.Perm.cons _ ?_
      obtain ⟨cs2', hp2, hf2⟩ := assoc_pairs NEq cs1 cs2 hnd1 hnd2 hkp hpw
      have hA := forall2_subnodes_map cs1 cs2' hf2
        (fun kc hkc m pfx2 hm => ih kc hkc m hm pfx2) pfx
      have hB : List.Perm ((subnodesAuxL cs2' pfx).map obsPair)
          ((subnodesAuxL cs2 pfx).map obsPair) :=
        List.Perm.map obsPair ((subnodesAuxL_perm cs2 cs2' hp2 pfx).symm)
      exact hA.trans hB

theorem sizePairs_congr (n1 n2 : Node) (h : NEq n1 n2) :
    List.Perm (sizePairs n1) (sizePairs n2) :=
  subnodes_pairs_congr n1 n2 h []

/-- C1 (amended): order independence holds once no record's path is a
leading portion of another's (in particular, no ancestor record of
another record and no duplicate paths): any two insertion orders of the
same record set produce trees with the same `total_size(root)` and the
same multiset of `(path, total_size)` pairs — and the same crash
behavior.  As stated the claim is false (see the counterexample): an
ancestor record arriving after a descendant discards the descendant. -/
theorem claim_C1 (l1 l2 : List Record) (hperm : List.Perm l1 l2)
    (hpw : List.Pairwise (fun r1 r2 => nonPfx r1.path_list r2.path_list) l1) :
    ORel (fun t1 t2 => totalSizeVal t1 = totalSizeVal t2 ∧
        List.Perm (sizePairs t1) (sizePairs t2))
      (make_tree l1) (make_tree l2) := by
  have h := foldAdd_perm l1 l2 hperm rootNode hpw ⟨List.nodup_nil, trivial⟩
  unfold make_tree
  cases h1 : foldAdd (some rootNode) l1 with
  | none =>
    cases h2 : foldAdd (some rootNode) l2 with
    | none => exact trivial
    | some t2 => rw [h1, h2] at h; exact False.elim h
  | some t1 =>
    cases h2 : foldAdd (some rootNode) l2 with
    | none => rw [h1, h2] at h; exact False.elim h
    | some t2 =>
      rw [h1, h2] at h
      exact ⟨tv_congr t1 t2 h, sizePairs_congr t1 t2 h⟩

/-- Witness for C1 (amended) on the records `{/a (file, 3), /b (file, 4)}`
in both orders. -/
theorem claim_C1_witness :
    ORel (fun t1 t2 => totalSizeVal t1 = totalSizeVal t2 ∧
        List.Perm (sizePairs t1) (sizePairs t2))
      (make_tree [fileRecA, fileRecB]) (make_tree [fileRecB, fileRecA]) :=
  claim_C1 [fileRecA, fileRecB] [fileRecB, fileRecA] (by decide) (by decide)
